import Mathlib

/-!
# Verification of `common/miscellaneous.c`

A shallow embedding of the utility functions of `common/miscellaneous.c`
(version comparison, compressed-file sniffing, hex printing, multi-string
matching, the libgcrypt out-of-core handler) together with theorems about
them.

Conventions of the embedding:

* a C string is the list of its characters (as numbers, compared as
  `unsigned char`); reading at the end of the list yields the terminating
  NUL (`0`), and a `0` inside a list is treated as a terminator by every
  function that scans;
* a `const char *` that may be `NULL` is an `Option CStr`;
* `int` is a 32-bit two's complement integer, arithmetic wraps (`wrap_int`);
* the truth values returned by the C functions are the integers `0` and `1`.
-/

namespace Miscellaneous

/-! ## Data model -/

/-- The characters of a NUL-terminated C string, terminator excluded. -/
abbrev CStr := List Nat

/-- The characters of a string literal as a C string. -/
def cstr (s : String) : CStr := s.toList.map Char.toNat

/-- The character a pointer points at: `*s`; the terminating NUL at the end. -/
def peek (s : CStr) : Nat := s.headD 0

/-- Reduction of a mathematical integer to a 32-bit two's complement `int`. -/
def wrap_int (x : Int) : Int := (x + 2147483648) % 4294967296 - 2147483648

/-- The macro `digitp (p)` of `util.h`: `(*(p) >= '0' && *(p) <= '9')`. -/
def digitp (p : CStr) : Bool := decide (48 ≤ peek p) && decide (peek p ≤ 57)

/-! ## Version strings -/

/-- The `for` loop of `parse_version_number`: while `digitp (s)`, do
`val *= 10; val += *s - '0'; s++`.  Returns the final `val` and `s`.
Overflow of the signed `val` is undefined in C; here it wraps.  It is not
reached for numbers below `2^31`. -/
def parse_version_number_loop (val : Int) : CStr → Int × CStr
  | [] => (val, [])
  | c :: cs =>
    if digitp (c :: cs) then
      parse_version_number_loop (wrap_int (wrap_int (val * 10) + ((c : Int) - 48))) cs
    else (val, c :: cs)

/-- The function `parse_version_number (s, number)`: `none` is the `NULL`
return; `some (n, rest)` is the return of the pointer `rest` with `n`
stored at `number`. -/
def parse_version_number (s : CStr) : Option (Int × CStr) :=
  if peek s = 48 && digitp s.tail then none
  else
    let r := parse_version_number_loop 0 s
    if r.1 < 0 then none else some r

/-- The function `parse_version_string (s, major, minor, micro)`: `none` is
the `NULL` return; `some (major, minor, micro, plvl)` is the return of the
patch level pointer `plvl` with the three numbers stored. -/
def parse_version_string (s : CStr) : Option (Int × Int × Int × CStr) :=
  match parse_version_number s with
  | none => none
  | some (major, s) =>
    if peek s ≠ 46 then none
    else
      match parse_version_number s.tail with
      | none => none
      | some (minor, s) =>
        if peek s ≠ 46 then none
        else
          match parse_version_number s.tail with
          | none => none
          | some (micro, s) => some (major, minor, micro, s)

/-- The C library function `strcmp`: the difference of the first pair of
characters that differ (as `unsigned char`), `0` when the strings are equal
up to their terminators. -/
def strcmp : CStr → CStr → Int
  | [], [] => 0
  | [], d :: _ => 0 - (d : Int)
  | c :: _, [] => (c : Int)
  | c :: cs, d :: ds =>
    if c ≠ d then (c : Int) - (d : Int)
    else if c = 0 then 0
    else strcmp cs ds

/-- The function `gnupg_compare_version (a, b)`: `1` if version `a` is at
least version `b`, else `0`. -/
def gnupg_compare_version (a b : Option CStr) : Int :=
  match a, b with
  | none, _ => 0
  | _, none => 0
  | some a, some b =>
    match parse_version_string a with
    | none => 0
    | some (a_major, a_minor, a_micro, a_plvl) =>
      match parse_version_string b with
      | none => 0
      | some (b_major, b_minor, b_micro, b_plvl) =>
        if a_major > b_major
            ∨ (a_major = b_major ∧ a_minor > b_minor)
            ∨ (a_major = b_major ∧ a_minor = b_minor ∧ a_micro > b_micro)
            ∨ (a_major = b_major ∧ a_minor = b_minor ∧ a_micro = b_micro
                ∧ strcmp a_plvl b_plvl ≥ 0)
        then 1 else 0

/-- The decimal numeral of a natural number, as printed by `%d`. -/
def decimal (n : Nat) : CStr := (Nat.toDigits 10 n).map Char.toNat

/-- The version string `<major>.<minor>.<micro><patchlevel>`. -/
def version_string (major minor micro : Nat) (plvl : CStr) : CStr :=
  decimal major ++ 46 :: (decimal minor ++ 46 :: (decimal micro ++ plvl))

/-- The value of a run of decimal digit characters, most significant first. -/
def digits_value (ds : CStr) : Nat := ds.foldl (fun acc c => acc * 10 + (c - 48)) 0

/-- Every character of the run is a decimal digit. -/
def all_digits (ds : CStr) : Prop := ∀ c ∈ ds, 48 ≤ c ∧ c ≤ 57

instance (ds : CStr) : Decidable (all_digits ds) := by
  unfold all_digits; infer_instance

/-- The run of decimal digits at the start of `s`: the characters the loop
of `parse_version_number` consumes. -/
def leading_digits (s : CStr) : CStr := s.takeWhile (fun c => decide (48 ≤ c ∧ c ≤ 57))

/-- What follows the run of decimal digits at the start of `s`: where the
loop of `parse_version_number` stops. -/
def after_digits (s : CStr) : CStr := s.dropWhile (fun c => decide (48 ≤ c ∧ c ≤ 57))

/-- The numbers `parse_version_string` reads in `s` are in `int` range, so
that no signed overflow occurs while parsing `s`: the digits at the start
have a value below `2^31`, and so have the digits after the first dot, if
there is one, and those after the second dot, if there is one. -/
def numbers_in_int_range (s : CStr) : Prop :=
  digits_value (leading_digits s) < 2147483648
    ∧ (peek (after_digits s) = 46 →
        digits_value (leading_digits (after_digits s).tail) < 2147483648
          ∧ (peek (after_digits (after_digits s).tail) = 46 →
              digits_value (leading_digits (after_digits (after_digits s).tail).tail)
                < 2147483648))

instance (s : CStr) : Decidable (numbers_in_int_range s) := by
  unfold numbers_in_int_range; infer_instance

/-- The comparison made in the `return` statement of `gnupg_compare_version`
on two parsed versions. -/
def version_ge (x y : Int × Int × Int × CStr) : Prop :=
  x.1 > y.1
    ∨ (x.1 = y.1 ∧ x.2.1 > y.2.1)
    ∨ (x.1 = y.1 ∧ x.2.1 = y.2.1 ∧ x.2.2.1 > y.2.2.1)
    ∨ (x.1 = y.1 ∧ x.2.1 = y.2.1 ∧ x.2.2.1 = y.2.2.1 ∧ strcmp x.2.2.2 y.2.2.2 ≥ 0)

instance (x y : Int × Int × Int × CStr) : Decidable (version_ge x y) := by
  unfold version_ge; infer_instance


/-! ## Hex printing -/

/-- The local macro `tohex(n)` of `print_hexstring`:
`((n) < 10 ? ((n) + '0') : (((n) - 10) + 'A'))`. -/
def tohex (n : Nat) : Nat := if n < 10 then n + 48 else (n - 10) + 65

/-- The C library function `putc (c, fp)` on a stream modelled as the list of
characters written to it so far. -/
def putc (c : Nat) (fp : List Nat) : List Nat := fp ++ [c]

/-- The `for` loop of `print_hexstring`, `s` running over the buffer:
`for (s = buffer; length; s++, length--)`. -/
def print_hexstring_loop (fp : List Nat) : List Nat → Nat → List Nat
  | _, 0 => fp
  | s, length + 1 =>
    let fp := putc (tohex ((s.headD 0 >>> 4) &&& 15)) fp
    let fp := putc (tohex (s.headD 0 &&& 15)) fp
    print_hexstring_loop fp s.tail length

/-- The function `print_hexstring (fp, buffer, length, reserved)`: the
contents of the stream `fp` after the call.  The buffer is a list of
`unsigned char` values. -/
def print_hexstring (fp : List Nat) (buffer : List Nat) (length : Nat) (reserved : Int) :
    List Nat :=
  let _ := reserved
  print_hexstring_loop fp buffer length

/-- The value of a hexadecimal digit character, either case. -/
def hex_value (c : Nat) : Option Nat :=
  if 48 ≤ c ∧ c ≤ 57 then some (c - 48)
  else if 65 ≤ c ∧ c ≤ 70 then some (c - 55)
  else if 97 ≤ c ∧ c ≤ 102 then some (c - 87)
  else none

/-- Hex decoding: two hexadecimal digits per byte, high nibble first. -/
def hex_decode : List Nat → Option (List Nat)
  | [] => some []
  | [_] => none
  | h :: l :: rest =>
    match hex_value h, hex_value l, hex_decode rest with
    | some hv, some lv, some bytes => some ((hv * 16 + lv) :: bytes)
    | _, _, _ => none

/-- The two characters written for one byte. -/
def hex_pair (b : Nat) : List Nat := [tohex ((b >>> 4) &&& 15), tohex (b &&& 15)]

/-- The characters written for a buffer. -/
def hex_encode : List Nat → List Nat
  | [] => []
  | b :: bs => hex_pair b ++ hex_encode bs

/-! ## Compressed file detection -/

/-- The local `struct magic_compress_s` of `is_file_compressed`. -/
structure magic_compress_s where
  len : Nat
  magic : List Nat
deriving DecidableEq

/-- The local table `magic[]` of `is_file_compressed`. -/
def magic : List magic_compress_s :=
  [ ⟨3, [0x42, 0x5a, 0x68, 0x00]⟩,   -- bzip2
    ⟨3, [0x1f, 0x8b, 0x08, 0x00]⟩,   -- gzip
    ⟨4, [0x50, 0x4b, 0x03, 0x04]⟩ ]  -- (pk)zip

/-- The C library function `memcmp (a, b, n)`: the difference of the first
pair of bytes that differ among the first `n`, else `0`. -/
def memcmp : List Nat → List Nat → Nat → Int
  | _, _, 0 => 0
  | a, b, n + 1 =>
    if a.headD 0 ≠ b.headD 0 then (a.headD 0 : Int) - (b.headD 0 : Int)
    else memcmp a.tail b.tail n

/-- What the calls on an opened `iobuf_t a` yield (`iobuf.c` is not part of
these sources): the value and overflow flag of `iobuf_get_filelength`, the
bytes stored by `iobuf_read (a, buf, 4)` (`none` when it returns `-1`), and
the field `a->error`. -/
structure iobuf where
  filelength : Nat
  overflow : Bool
  read : Option (List Nat)
  error : Int

/-- The environment of `is_file_compressed`: the results of
`iobuf_is_pipe_filename`, `iobuf_open` (`none` is `NULL`) and
`gpg_error_from_syserror`, and the uninitialised contents of `buf[4]`. -/
structure file_system where
  iobuf_is_pipe_filename : Option CStr → Bool
  iobuf_open : Option CStr → Option iobuf
  gpg_error_from_syserror : Int
  buf : List Nat

/-- The `for` loop of `is_file_compressed` over the table `magic`: the pair
of `rc` and `*ret_rc` after the loop. -/
def is_file_compressed_loop (buf : List Nat) (ret_rc : Int) :
    List magic_compress_s → Int × Int
  | [] => (0, ret_rc)
  | m :: ms =>
    if memcmp buf m.magic m.len = 0 then (1, 0)
    else is_file_compressed_loop buf ret_rc ms

/-- The function `is_file_compressed (s, ret_rc)`.  The pointer `ret_rc` is
`none` when `NULL`, else the value of `*ret_rc` before the call; the result
is the return value together with `*ret_rc` after the call. -/
def is_file_compressed (fs : file_system) (s : Option CStr) (ret_rc : Option Int) :
    Int × Option Int :=
  if fs.iobuf_is_pipe_filename s = true ∨ ret_rc = none then (0, ret_rc)
  else
    match fs.iobuf_open s with
    | none => (0, some fs.gpg_error_from_syserror)
    | some a =>
      if a.filelength < 4 ∧ a.overflow = false then (0, some 0)
      else
        match a.read with
        | none => (0, some a.error)
        | some bytes =>
          let buf := bytes.take 4 ++ fs.buf.drop (bytes.take 4).length
          let r := is_file_compressed_loop buf (ret_rc.getD 0) magic
          (r.1, some r.2)


/-! ## Multi-string matching -/

/-- The C library function `tolower` in the C locale. -/
def tolower (c : Nat) : Nat := if 65 ≤ c ∧ c ≤ 90 then c + 32 else c

/-- The C library function `strncasecmp (s1, s2, n)`: compares at most `n`
characters ignoring case, stopping at a terminator. -/
def strncasecmp : CStr → CStr → Nat → Int
  | _, _, 0 => 0
  | s1, s2, n + 1 =>
    if tolower (peek s1) ≠ tolower (peek s2) then
      (tolower (peek s1) : Int) - (tolower (peek s2) : Int)
    else if peek s1 = 0 then 0
    else strncasecmp s1.tail s2.tail n

/-- The C library function `strcspn (s, reject)`: the length of the initial
part of `s` that contains no character of `reject`. -/
def strcspn : CStr → CStr → Nat
  | [], _ => 0
  | c :: cs, reject => if c = 0 ∨ c ∈ reject then 0 else strcspn cs reject + 1

/-- The `do ... while (*multistr)` loop of `match_multistr`, one iteration
per unit of fuel; `none` when the fuel runs out. -/
def match_multistr_loop : Nat → CStr → CStr → Option Int
  | 0, _, _ => none
  | fuel + 1, multistr, mtch =>
    let seglen := strcspn multistr [124]
    if seglen = 0 then some 0
    else if strncasecmp multistr mtch seglen = 0 then some 1
    else
      let multistr := multistr.drop seglen
      let multistr := if peek multistr = 124 then multistr.tail else multistr
      if peek multistr ≠ 0 then match_multistr_loop fuel multistr mtch
      else some 0

/-- The function `match_multistr (multistr, match)`.  Every iteration but
the last consumes at least one character of `multistr`, so its length plus
one bounds the number of iterations. -/
def match_multistr (multistr mtch : CStr) : Option Int :=
  match_multistr_loop (multistr.length + 1) multistr mtch

/-- The substrings of a C string delimited by `|`. -/
def segments : CStr → List CStr
  | [] => [[]]
  | c :: cs =>
    if c = 0 then [[]]
    else if c = 124 then [] :: segments cs
    else
      match segments cs with
      | [] => [[c]]
      | seg :: segs => (c :: seg) :: segs

/-- The segments in front of the first empty segment. -/
def tried_segments (s : CStr) : List CStr :=
  (segments s).takeWhile (fun seg => !seg.isEmpty)

/-- Equality of two strings ignoring letter case. -/
def case_equal (seg m : CStr) : Prop := seg.map tolower = m.map tolower

/-- The first `len (seg)` characters of `m` equal `seg` ignoring letter case. -/
def begins_nocase (seg m : CStr) : Prop :=
  seg.length ≤ m.length ∧ (m.take seg.length).map tolower = seg.map tolower

instance (seg m : CStr) : Decidable (case_equal seg m) := by
  unfold case_equal; infer_instance

instance (seg m : CStr) : Decidable (begins_nocase seg m) := by
  unfold begins_nocase; infer_instance


/-! ## The libgcrypt out-of-core handler -/

/-- The log levels `JNLIB_LOG_*` named in `my_gcry_logger`. -/
inductive jnlib_log_level where
  | JNLIB_LOG_CONT
  | JNLIB_LOG_INFO
  | JNLIB_LOG_WARN
  | JNLIB_LOG_ERROR
  | JNLIB_LOG_FATAL
  | JNLIB_LOG_BUG
  | JNLIB_LOG_DEBUG
deriving DecidableEq

/-- A record handed to the logger: level, format string and its argument. -/
structure log_record where
  level : jnlib_log_level
  fmt : String
  arg : Nat
deriving DecidableEq

/-- Modelled from the spec: the logger (`logging.c`, not part of these
sources) is a structured logger accepting records at levels; `log_fatal`
hands it one record at level fatal. -/
def log_fatal (log : List log_record) (fmt : String) (arg : Nat) : List log_record :=
  log ++ [⟨jnlib_log_level.JNLIB_LOG_FATAL, fmt, arg⟩]

/-- The state `my_gcry_outofcore_handler` works on: its `static int
been_here` and the records logged so far. -/
structure handler_state where
  been_here : Int
  log : List log_record
deriving DecidableEq

/-- The state at program start: statics are zero, nothing is logged. -/
def handler_state.initial : handler_state := ⟨0, []⟩

/-- One invocation of the handler by libgcrypt, with the invocations that
re-enter the handler while this one is inside `log_fatal` (the recursive
calls). -/
inductive invocation where
  | call (req_n flags : Nat) (during_log : List invocation)

mutual
/-- The function `my_gcry_outofcore_handler (opaque, req_n, flags)`
(`opaque` is unused).  The result is the state afterwards and the values
returned by the invocations that ran, in the order they returned; the last
one is this invocation's. -/
def my_gcry_outofcore_handler : handler_state → invocation → handler_state × List Int
  | st, .call req_n flags during_log =>
    if st.been_here = 0 then
      let st : handler_state := { st with been_here := 1 }
      let r := my_gcry_outofcore_handler_calls st during_log
      let st := r.1
      let st : handler_state :=
        if flags &&& 1 ≠ 0 then
          ⟨st.been_here,
            log_fatal st.log "out of core in secure memory while allocating %lu bytes" req_n⟩
        else
          ⟨st.been_here, log_fatal st.log "out of core while allocating %lu bytes" req_n⟩
      (st, r.2 ++ [0])
    else (st, [0])
/-- A sequence of invocations of the handler, one after the other. -/
def my_gcry_outofcore_handler_calls :
    handler_state → List invocation → handler_state × List Int
  | st, [] => (st, [])
  | st, c :: cs =>
    let r := my_gcry_outofcore_handler st c
    let r' := my_gcry_outofcore_handler_calls r.1 cs
    (r'.1, r.2 ++ r'.2)
end

/-- The number of recursive invocations made while `c` is inside `log_fatal`. -/
def invocation.nested : invocation → Nat
  | .call _ _ during_log => during_log.length

/-! ## Cipher names and file names -/

/-- The function `gnupg_cipher_algo_name (algo)`.  The libgcrypt function
`gcry_cipher_algo_name` is a parameter. -/
def gnupg_cipher_algo_name (gcry_cipher_algo_name : Int → CStr) (algo : Int) : CStr :=
  let s := gcry_cipher_algo_name algo
  if strcmp s (cstr "AES") = 0 then cstr "AES128" else s

/-- The function `print_fname_stdout (s)`; `none` is the `NULL` pointer. -/
def print_fname_stdout (s : Option CStr) : CStr :=
  match s with
  | none => cstr "[stdout]"
  | some s => if peek s = 45 ∧ peek s.tail = 0 then cstr "[stdout]" else s

/-- The function `print_fname_stdin (s)`; `none` is the `NULL` pointer. -/
def print_fname_stdin (s : Option CStr) : CStr :=
  match s with
  | none => cstr "[stdin]"
  | some s => if peek s = 45 ∧ peek s.tail = 0 then cstr "[stdin]" else s

/-! ## The libgcrypt log handler -/

/-- The constants `GCRY_LOG_*` of libgcrypt's `gcrypt.h`, which is not part
of these sources: parameters of `my_gcry_logger`. -/
structure gcry_log_levels where
  GCRY_LOG_CONT : Int
  GCRY_LOG_INFO : Int
  GCRY_LOG_WARN : Int
  GCRY_LOG_ERROR : Int
  GCRY_LOG_FATAL : Int
  GCRY_LOG_BUG : Int
  GCRY_LOG_DEBUG : Int

/-- The seven constants as a list, in the order of the `case` labels. -/
def gcry_log_levels.labels (c : gcry_log_levels) : List Int :=
  [c.GCRY_LOG_CONT, c.GCRY_LOG_INFO, c.GCRY_LOG_WARN, c.GCRY_LOG_ERROR, c.GCRY_LOG_FATAL,
    c.GCRY_LOG_BUG, c.GCRY_LOG_DEBUG]

/-- The values the constants have in libgcrypt. -/
def gcrypt_h : gcry_log_levels := ⟨0, 10, 20, 30, 40, 50, 100⟩

/-- The function `my_gcry_logger (dummy, level, fmt, arg_ptr)` (`dummy` is
unused): the arguments of its call `log_logv (level, fmt, arg_ptr)`.  The
`switch` is read as the chain of its `case` labels; C requires the labels
to be distinct. -/
def my_gcry_logger {va_list : Type} (c : gcry_log_levels) (level : Int) (fmt : CStr)
    (arg_ptr : va_list) : jnlib_log_level × CStr × va_list :=
  let level :=
    if level = c.GCRY_LOG_CONT then jnlib_log_level.JNLIB_LOG_CONT
    else if level = c.GCRY_LOG_INFO then jnlib_log_level.JNLIB_LOG_INFO
    else if level = c.GCRY_LOG_WARN then jnlib_log_level.JNLIB_LOG_WARN
    else if level = c.GCRY_LOG_ERROR then jnlib_log_level.JNLIB_LOG_ERROR
    else if level = c.GCRY_LOG_FATAL then jnlib_log_level.JNLIB_LOG_FATAL
    else if level = c.GCRY_LOG_BUG then jnlib_log_level.JNLIB_LOG_BUG
    else if level = c.GCRY_LOG_DEBUG then jnlib_log_level.JNLIB_LOG_DEBUG
    else jnlib_log_level.JNLIB_LOG_ERROR
  (level, fmt, arg_ptr)

/-! ## The key search entry point

Only the declaration of `ks_action_search` (`dirmngr/ks-action.h`) is part
of these sources; its body is modelled from the specification of the search
subsystem: pattern normalizer, backend registry, protocol adapters,
dispatcher, result merger and streaming output writer. -/

/-- Modelled from the spec: a KeyRecord, with its fingerprint, algorithm,
key length, creation and expiration timestamps, flags and user ids. -/
structure KeyRecord where
  fingerprint : CStr
  algorithm : Nat
  key_length : Nat
  creation : Nat
  expiration : Nat
  flags : CStr
  uids : List CStr
deriving DecidableEq

/-- Modelled from the spec: a KeyserverEndpoint of the backend registry. -/
structure KeyserverEndpoint where
  host : CStr
  port : Nat
  tls : Bool
  timeout : Nat
  enabled : Bool
deriving DecidableEq

/-- Modelled from the spec: the status of a BackendOutcome. -/
inductive outcome_status where
  | Success
  | Timeout
  | NetworkError
  | ProtocolError
  | ParseError
deriving DecidableEq

/-- Modelled from the spec: a BackendOutcome, the result of one completed
backend call; the records are empty on failure. -/
structure BackendOutcome where
  endpoint : KeyserverEndpoint
  status : outcome_status
  records : List KeyRecord

/-- Modelled from the spec: the status codes of the search entry point. -/
inductive search_status where
  | Success
  | PartialSuccess
  | NotFound
  | NoBackendConfigured
  | NoBackendAvailable
  | InvalidPattern
  | Cancelled
deriving DecidableEq

/-- Modelled from the spec: what a backend sends back, as the network
delivers it: a response made of entries, each a record as the backend wrote
it or a corrupt entry (`none`), or one of the failures. -/
inductive backend_reply where
  | response (entries : List (Option KeyRecord))
  | timeout
  | network_error
  | protocol_error
  | parse_error

/-- Modelled from the spec: one backend call that completed. -/
structure completion where
  endpoint : KeyserverEndpoint
  reply : backend_reply

/-- Modelled from the spec: the context of a search, which supplies the
backend registry. -/
structure ctrl_t where
  registry : List KeyserverEndpoint

/-- Modelled from the spec: white space in a pattern or fingerprint. -/
def is_space (c : Nat) : Bool := decide (c = 32) || (decide (9 ≤ c) && decide (c ≤ 13))

/-- Modelled from the spec: a hexadecimal digit, either case. -/
def is_hex_digit (c : Nat) : Bool := (hex_value c).isSome

/-- Modelled from the spec: the upper-case form of a character. -/
def toupper (c : Nat) : Nat := if 97 ≤ c ∧ c ≤ 122 then c - 32 else c

/-- Modelled from the spec: the pattern normalizer fails with InvalidPattern
when the string is empty, contains only whitespace, or claims to be hex
(prefix `0x`) but contains non-hex characters. -/
def invalid_pattern (p : CStr) : Bool :=
  let trimmed := ((p.dropWhile is_space).reverse.dropWhile is_space).reverse
  match trimmed with
  | [] => true
  | 48 :: 120 :: digits => !digits.all is_hex_digit
  | _ => false

/-- Modelled from the spec: the backend registry exposes the endpoints with
`enabled = true`. -/
def active_endpoints (ctrl : ctrl_t) : List KeyserverEndpoint :=
  ctrl.registry.filter (fun e => e.enabled)

/-- Modelled from the spec: fingerprints are canonicalized (uppercase hex,
whitespace stripped) before being placed in a KeyRecord. -/
def canonical_fingerprint (fpr : CStr) : CStr :=
  (fpr.filter (fun c => !is_space c)).map toupper

/-- Modelled from the spec: a protocol adapter's `parse_response` skips the
corrupt entries and returns the other records with canonical fingerprints. -/
def parse_response (entries : List (Option KeyRecord)) : List KeyRecord :=
  entries.filterMap
    (fun e => e.map (fun r => { r with fingerprint := canonical_fingerprint r.fingerprint }))

/-- Modelled from the spec: the dispatcher turns a completed backend call
into a BackendOutcome. -/
def backend_outcome (c : completion) : BackendOutcome :=
  match c.reply with
  | .response entries => ⟨c.endpoint, outcome_status.Success, parse_response entries⟩
  | .timeout => ⟨c.endpoint, outcome_status.Timeout, []⟩
  | .network_error => ⟨c.endpoint, outcome_status.NetworkError, []⟩
  | .protocol_error => ⟨c.endpoint, outcome_status.ProtocolError, []⟩
  | .parse_error => ⟨c.endpoint, outcome_status.ParseError, []⟩

/-- Modelled from the spec: the state of the result merger and the streaming
output writer during one search: the fingerprints already emitted, the
output sequence, the warnings, the records written to the sink, the number
of records the sink still accepts (`none`: it never fails) and the
cancellation signal. -/
structure merger_state where
  seen : List CStr
  output : List KeyRecord
  warnings : List (KeyserverEndpoint × outcome_status)
  written : List KeyRecord
  room : Option Nat
  cancelled : Bool

/-- Modelled from the spec: the streaming output writer writes a record to
the sink; a write failure raises the cancellation signal. -/
def write_record (st : merger_state) (r : KeyRecord) : merger_state :=
  match st.room with
  | none => { st with written := st.written ++ [r] }
  | some 0 => { st with cancelled := true }
  | some (n + 1) => { st with written := st.written ++ [r], room := some n }

/-- Modelled from the spec: the merger, for one KeyRecord: if its fingerprint
is unseen, mark it seen, append it to the output sequence and emit it; if
already seen, discard it.  Nothing is merged or written once the
cancellation signal is raised. -/
def merge_record (st : merger_state) (r : KeyRecord) : merger_state :=
  if st.cancelled then st
  else if r.fingerprint ∈ st.seen then st
  else write_record { st with seen := r.fingerprint :: st.seen, output := st.output ++ [r] } r

/-- Modelled from the spec: the merger, for one BackendOutcome: the records
of a successful outcome are merged in arrival order, any other outcome is
recorded as a warning. -/
def merge_outcome (st : merger_state) (o : BackendOutcome) : merger_state :=
  if st.cancelled then st
  else
    match o.status with
    | outcome_status.Success => o.records.foldl merge_record st
    | status => { st with warnings := st.warnings ++ [(o.endpoint, status)] }

/-- Modelled from the spec: the overall status once all backends have
reported or the search was cancelled. -/
def final_status (outcomes : List BackendOutcome) (st : merger_state) : search_status :=
  if st.cancelled then search_status.Cancelled
  else if st.output ≠ [] then
    if st.warnings = [] then search_status.Success else search_status.PartialSuccess
  else if outcomes.all (fun o => decide (o.status ≠ outcome_status.Success)) then
    search_status.NoBackendAvailable
  else search_status.NotFound

/-- Modelled from the spec: the body of `ks_action_search (ctrl, patterns,
outfp)`, which is not part of these sources.  `completions` are the backend
calls in the order they complete; `room` is the number of records the sink
`outfp` accepts before a write fails.  The result is the status and the key
records written to `outfp`. -/
def ks_action_search (ctrl : ctrl_t) (patterns : List CStr) (completions : List completion)
    (room : Option Nat) : search_status × List KeyRecord :=
  if patterns.any invalid_pattern then (search_status.InvalidPattern, [])
  else if active_endpoints ctrl = [] then (search_status.NoBackendConfigured, [])
  else
    let outcomes :=
      (completions.filter (fun c => decide (c.endpoint ∈ active_endpoints ctrl))).map
        backend_outcome
    let st := outcomes.foldl merge_outcome ⟨[], [], [], [], room, false⟩
    (final_status outcomes st, st.written)

/-- The invariant of the merger: the output sequence has no fingerprint
twice, its fingerprints are marked seen, and what was written is part of it. -/
def merger_invariant (st : merger_state) : Prop :=
  (st.output.map (fun r => r.fingerprint)).Nodup
    ∧ (∀ r ∈ st.output, r.fingerprint ∈ st.seen)
    ∧ st.written.Sublist st.output

/-! ## Arithmetic of the digit loop -/

theorem wrap_int_of_range (x : Int) (h0 : 0 ≤ x) (h1 : x < 2147483648) : wrap_int x = x := by
  unfold wrap_int; omega

theorem digitp_cons (c : Nat) (cs : CStr) :
    digitp (c :: cs) = true ↔ 48 ≤ c ∧ c ≤ 57 := by
  simp [digitp, peek]

theorem acc_le_foldl (ds : CStr) (acc : Nat) :
    acc ≤ ds.foldl (fun a c => a * 10 + (c - 48)) acc := by
  induction ds generalizing acc with
  | nil => simp
  | cons c cs ih =>
    simp only [List.foldl_cons]
    have := ih (acc * 10 + (c - 48))
    omega

theorem loop_stop (val : Int) (rest : CStr) (hr : digitp rest = false) :
    parse_version_number_loop val rest = (val, rest) := by
  cases rest with
  | nil => rfl
  | cons c cs => simp [parse_version_number_loop, hr]

theorem loop_digits (ds rest : CStr) (hd : all_digits ds) (hr : digitp rest = false) :
    ∀ acc : Nat, ds.foldl (fun a c => a * 10 + (c - 48)) acc < 2147483648 →
      parse_version_number_loop (acc : Int) (ds ++ rest)
        = (((ds.foldl (fun a c => a * 10 + (c - 48)) acc : Nat) : Int), rest) := by
  induction ds with
  | nil => intro acc _; simpa using loop_stop (acc : Int) rest hr
  | cons c cs ih =>
    intro acc hlt
    have hc : 48 ≤ c ∧ c ≤ 57 := hd c (List.mem_cons_self c cs)
    have hcs : all_digits cs := fun x hx => hd x (List.mem_cons_of_mem c hx)
    simp only [List.foldl_cons] at hlt ⊢
    have hle := acc_le_foldl cs (acc * 10 + (c - 48))
    have hdig : digitp (c :: (cs ++ rest)) = true := (digitp_cons c _).2 hc
    have hstep : wrap_int (wrap_int ((acc : Int) * 10) + ((c : Int) - 48))
        = ((acc * 10 + (c - 48) : Nat) : Int) := by
      rw [wrap_int_of_range ((acc : Int) * 10) (by omega) (by omega)]
      rw [wrap_int_of_range _ (by omega) (by omega)]
      omega
    rw [List.cons_append, parse_version_number_loop, if_pos hdig, hstep]
    exact ih hcs _ hlt

/-- A run of digits without a leading zero, in `int` range and followed by a
non-digit, is read as its value, and the pointer stops right after it. -/
theorem parse_version_number_digits (ds rest : CStr) (hd : all_digits ds)
    (hz : ∀ d tl, ds = 48 :: d :: tl → False) (hv : digits_value ds < 2147483648)
    (hr : digitp rest = false) :
    parse_version_number (ds ++ rest) = some ((digits_value ds : Int), rest) := by
  have hlead : (peek (ds ++ rest) = 48 && digitp (ds ++ rest).tail) = false := by
    cases ds with
    | nil =>
      cases rest with
      | nil => decide
      | cons r rs =>
        have : ¬ (48 ≤ r ∧ r ≤ 57) := by
          intro h; rw [(digitp_cons r rs).2 h] at hr; cases hr
        have h48 : r ≠ 48 := by omega
        simp [peek, h48]
    | cons c cs =>
      cases cs with
      | nil =>
        simp only [List.cons_append, List.nil_append, List.tail_cons, hr, Bool.and_false]
      | cons d tl =>
        have h48 : c ≠ 48 := fun h => hz d tl (by rw [h])
        simp [peek, h48]
  have hloop := loop_digits ds rest hd hr 0 hv
  simp only [parse_version_number, hlead, Nat.cast_zero] at hloop ⊢
  rw [hloop]
  simp [digits_value]

/-! ## Decimal numerals -/

theorem toDigitsCore_acc : ∀ n fuel : Nat, n < fuel → ∀ acc : List Char,
    Nat.toDigitsCore 10 fuel n acc = Nat.toDigits 10 n ++ acc := by
  intro n
  induction n using Nat.strong_induction_on with
  | _ n ih =>
    intro fuel hf acc
    obtain ⟨f, rfl⟩ : ∃ f, fuel = f + 1 := ⟨fuel - 1, by omega⟩
    unfold Nat.toDigits
    simp only [Nat.toDigitsCore]
    by_cases h : n / 10 = 0
    · simp [h]
    · have hlt : n / 10 < n := by omega
      simp only [h, if_false]
      rw [ih (n / 10) hlt f (by omega), ih (n / 10) hlt n hlt]
      simp

theorem toDigits_small (n : Nat) (h : n < 10) :
    Nat.toDigits 10 n = [Nat.digitChar n] := by
  unfold Nat.toDigits
  simp only [Nat.toDigitsCore]
  have h0 : n / 10 = 0 := by omega
  have h1 : n % 10 = n := by omega
  simp [h0, h1]

theorem toDigits_large (n : Nat) (h : 10 ≤ n) :
    Nat.toDigits 10 n = Nat.toDigits 10 (n / 10) ++ [Nat.digitChar (n % 10)] := by
  have h0 : n / 10 ≠ 0 := by omega
  conv_lhs => unfold Nat.toDigits
  simp only [Nat.toDigitsCore, h0, if_false]
  exact toDigitsCore_acc (n / 10) n (by omega) _

theorem digitChar_toNat (m : Nat) (h : m < 10) : (Nat.digitChar m).toNat = 48 + m := by
  interval_cases m <;> rfl

theorem decimal_small (n : Nat) (h : n < 10) : decimal n = [48 + n] := by
  simp [decimal, toDigits_small n h, digitChar_toNat n h]

theorem decimal_large (n : Nat) (h : 10 ≤ n) :
    decimal n = decimal (n / 10) ++ [48 + n % 10] := by
  simp [decimal, toDigits_large n h, digitChar_toNat (n % 10) (by omega)]

theorem decimal_all_digits (n : Nat) : all_digits (decimal n) := by
  induction n using Nat.strong_induction_on with
  | _ n ih =>
    by_cases h : n < 10
    · rw [decimal_small n h]
      intro c hc
      simp only [List.mem_singleton] at hc
      omega
    · rw [decimal_large n (by omega)]
      intro c hc
      rcases List.mem_append.1 hc with hc | hc
      · exact ih (n / 10) (by omega) c hc
      · simp only [List.mem_singleton] at hc
        omega

theorem digits_value_snoc (ds : CStr) (c : Nat) :
    digits_value (ds ++ [c]) = digits_value ds * 10 + (c - 48) := by
  simp [digits_value, List.foldl_append]

theorem digits_value_decimal (n : Nat) : digits_value (decimal n) = n := by
  induction n using Nat.strong_induction_on with
  | _ n ih =>
    by_cases h : n < 10
    · rw [decimal_small n h]
      simp [digits_value]
    · rw [decimal_large n (by omega), digits_value_snoc, ih (n / 10) (by omega)]
      omega

/-- The numeral of a positive number starts with a digit from `1` to `9`. -/
theorem decimal_head_pos (n : Nat) (hn : 0 < n) :
    ∃ c tl, decimal n = c :: tl ∧ 49 ≤ c ∧ c ≤ 57 := by
  induction n using Nat.strong_induction_on with
  | _ n ih =>
    by_cases h : n < 10
    · exact ⟨48 + n, [], decimal_small n h, by omega, by omega⟩
    · obtain ⟨c, tl, he, h1, h2⟩ := ih (n / 10) (by omega) (by omega)
      exact ⟨c, tl ++ [48 + n % 10], by rw [decimal_large n (by omega), he]; rfl, h1, h2⟩

theorem decimal_no_leading_zero (n : Nat) : ∀ d tl, decimal n = 48 :: d :: tl → False := by
  intro d tl he
  rcases Nat.eq_zero_or_pos n with h0 | hpos
  · subst h0
    rw [decimal_small 0 (by omega)] at he
    cases he
  · obtain ⟨c, tl', he', h1, _⟩ := decimal_head_pos n hpos
    rw [he] at he'
    injection he' with hc _
    omega

theorem parse_version_number_decimal (n : Nat) (rest : CStr) (hn : n < 2147483648)
    (hr : digitp rest = false) :
    parse_version_number (decimal n ++ rest) = some ((n : Int), rest) := by
  have h := parse_version_number_digits (decimal n) rest (decimal_all_digits n)
    (decimal_no_leading_zero n) (by rw [digits_value_decimal]; exact hn) hr
  rw [digits_value_decimal] at h
  exact h

theorem parse_version_string_format (M m u : Nat) (p : CStr)
    (hM : M < 2147483648) (hm : m < 2147483648) (hu : u < 2147483648)
    (hp : digitp p = false) :
    parse_version_string (version_string M m u p) = some ((M : Int), (m : Int), (u : Int), p) := by
  have hdot : ∀ r : CStr, digitp (46 :: r) = false := fun r => by simp [digitp, peek]
  unfold version_string parse_version_string
  rw [parse_version_number_decimal M _ hM (hdot _)]
  simp only [peek, List.headD_cons, ne_eq, not_true_eq_false, if_false, List.tail_cons]
  rw [parse_version_number_decimal m _ hm (hdot _)]
  simp only [List.headD_cons, ne_eq, not_true_eq_false, if_false, List.tail_cons]
  rw [parse_version_number_decimal u _ hu hp]

/-! ## The order behind `gnupg_compare_version` -/

theorem strcmp_self (a : CStr) : strcmp a a = 0 := by
  induction a with
  | nil => rfl
  | cons c cs ih => simp [strcmp, ih]

theorem strcmp_swap : ∀ a b : CStr, strcmp b a = - strcmp a b := by
  intro a
  induction a with
  | nil =>
    intro b
    cases b with
    | nil => simp [strcmp]
    | cons d ds => simp [strcmp]
  | cons c cs ih =>
    intro b
    cases b with
    | nil => simp [strcmp]
    | cons d ds =>
      simp only [strcmp]
      by_cases h : c = d
      · subst h
        by_cases h0 : c = 0
        · simp [h0]
        · simp [h0, ih ds]
      · have h' : d ≠ c := fun e => h e.symm
        simp [h, h']

theorem strcmp_trans : ∀ a b c : CStr,
    0 ≤ strcmp a b → 0 ≤ strcmp b c → 0 ≤ strcmp a c := by
  intro a
  induction a with
  | nil =>
    intro b c hab hbc
    cases b with
    | nil => exact hbc
    | cons d ds =>
      cases c with
      | nil => simp [strcmp]
      | cons e es =>
        simp only [strcmp] at hab hbc ⊢
        split_ifs at hbc <;> omega
  | cons x xs ih =>
    intro b c hab hbc
    cases b with
    | nil =>
      cases c with
      | nil => simp [strcmp]
      | cons e es =>
        simp only [strcmp] at hab hbc ⊢
        split_ifs <;> omega
    | cons d ds =>
      cases c with
      | nil => simp [strcmp]
      | cons e es =>
        simp only [strcmp] at hab hbc ⊢
        split_ifs at hab hbc ⊢
        all_goals first
          | omega
          | exact ih ds es hab hbc

theorem compare_of_parsed (a b : CStr) (x y : Int × Int × Int × CStr)
    (ha : parse_version_string a = some x) (hb : parse_version_string b = some y) :
    gnupg_compare_version (some a) (some b) = if version_ge x y then 1 else 0 := by
  obtain ⟨x1, x2, x3, x4⟩ := x
  obtain ⟨y1, y2, y3, y4⟩ := y
  simp only [gnupg_compare_version, ha, hb, version_ge]

theorem compare_null_left (b : Option CStr) : gnupg_compare_version none b = 0 := by
  cases b <;> rfl

theorem compare_null_right (a : Option CStr) : gnupg_compare_version a none = 0 := by
  cases a <;> rfl

theorem compare_zero_or_one (a b : Option CStr) :
    gnupg_compare_version a b = 0 ∨ gnupg_compare_version a b = 1 := by
  cases a with
  | none => left; exact compare_null_left b
  | some a =>
    cases b with
    | none => left; rfl
    | some b =>
      cases ha : parse_version_string a with
      | none => left; simp [gnupg_compare_version, ha]
      | some x =>
        cases hb : parse_version_string b with
        | none =>
          left
          obtain ⟨x1, x2, x3, x4⟩ := x
          simp [gnupg_compare_version, ha, hb]
        | some y =>
          rw [compare_of_parsed a b x y ha hb]
          split_ifs
          · right; rfl
          · left; rfl

theorem compare_invalid_left (a : CStr) (b : Option CStr)
    (ha : parse_version_string a = none) : gnupg_compare_version (some a) b = 0 := by
  cases b with
  | none => rfl
  | some b => simp [gnupg_compare_version, ha]

theorem compare_invalid_right (a : Option CStr) (b : CStr)
    (hb : parse_version_string b = none) : gnupg_compare_version a (some b) = 0 := by
  cases a with
  | none => rfl
  | some a =>
    cases ha : parse_version_string a with
    | none => simp [gnupg_compare_version, ha]
    | some x =>
      obtain ⟨x1, x2, x3, x4⟩ := x
      simp [gnupg_compare_version, ha, hb]

theorem compare_eq_one_iff (a b : Option CStr) :
    gnupg_compare_version a b = 1 ↔
      ∃ s t x y, a = some s ∧ b = some t ∧ parse_version_string s = some x
        ∧ parse_version_string t = some y ∧ version_ge x y := by
  constructor
  · intro h
    cases a with
    | none => rw [compare_null_left] at h; cases h
    | some s =>
      cases b with
      | none => rw [compare_null_right] at h; cases h
      | some t =>
        cases hs : parse_version_string s with
        | none => rw [compare_invalid_left s _ hs] at h; cases h
        | some x =>
          cases ht : parse_version_string t with
          | none => rw [compare_invalid_right _ t ht] at h; cases h
          | some y =>
            rw [compare_of_parsed s t x y hs ht] at h
            by_cases hge : version_ge x y
            · exact ⟨s, t, x, y, rfl, rfl, hs, ht, hge⟩
            · rw [if_neg hge] at h; cases h
  · rintro ⟨s, t, x, y, rfl, rfl, hs, ht, hge⟩
    rw [compare_of_parsed s t x y hs ht, if_pos hge]

theorem version_ge_refl (x : Int × Int × Int × CStr) : version_ge x x := by
  right; right; right
  exact ⟨rfl, rfl, rfl, by rw [strcmp_self]⟩

theorem version_ge_total (x y : Int × Int × Int × CStr) : version_ge x y ∨ version_ge y x := by
  unfold version_ge
  have hs := strcmp_swap x.2.2.2 y.2.2.2
  omega

theorem version_ge_trans (x y z : Int × Int × Int × CStr)
    (hxy : version_ge x y) (hyz : version_ge y z) : version_ge x z := by
  unfold version_ge at hxy hyz ⊢
  rcases hxy with h | ⟨a1, h⟩ | ⟨a1, a2, h⟩ | ⟨a1, a2, a3, hs⟩ <;>
    rcases hyz with k | ⟨b1, k⟩ | ⟨b1, b2, k⟩ | ⟨b1, b2, b3, ks⟩
  all_goals first
    | exact Or.inl (by omega)
    | exact Or.inr (Or.inl ⟨by omega, by omega⟩)
    | exact Or.inr (Or.inr (Or.inl ⟨by omega, by omega, by omega⟩))
    | exact Or.inr (Or.inr (Or.inr ⟨by omega, by omega, by omega,
        strcmp_trans _ _ _ hs ks⟩))

/-! ## Strings that do not parse -/

theorem loop_suffix (s : CStr) : ∀ val : Int,
    ∃ pre, s = pre ++ (parse_version_number_loop val s).2 := by
  induction s with
  | nil => intro val; exact ⟨[], rfl⟩
  | cons c cs ih =>
    intro val
    by_cases hd : digitp (c :: cs) = true
    · obtain ⟨pre, hpre⟩ := ih (wrap_int (wrap_int (val * 10) + ((c : Int) - 48)))
      refine ⟨c :: pre, ?_⟩
      rw [parse_version_number_loop, if_pos hd, List.cons_append, ← hpre]
    · refine ⟨[], ?_⟩
      rw [parse_version_number_loop, if_neg hd]
      rfl

theorem parse_version_number_some (s r : CStr) (n : Int)
    (h : parse_version_number s = some (n, r)) : parse_version_number_loop 0 s = (n, r) := by
  unfold parse_version_number at h
  dsimp only at h
  split_ifs at h
  injection h

theorem parse_version_number_suffix (s r : CStr) (n : Int)
    (h : parse_version_number s = some (n, r)) : ∃ pre, s = pre ++ r := by
  obtain ⟨pre, hpre⟩ := loop_suffix s 0
  rw [parse_version_number_some s r n h] at hpre
  exact ⟨pre, hpre⟩

theorem peek_dot (s : CStr) (h : peek s = 46) : s = 46 :: s.tail := by
  cases s with
  | nil => simp [peek] at h
  | cons c cs =>
    simp only [peek, List.headD_cons] at h
    rw [h, List.tail_cons]

/-- A string that parses has its two dots: fewer than two `.` characters
make `parse_version_string` fail. -/
theorem parse_version_string_few_dots (s : CStr) (h : s.count 46 < 2) :
    parse_version_string s = none := by
  unfold parse_version_string
  cases h1 : parse_version_number s with
  | none => rfl
  | some r1 =>
    obtain ⟨n1, s1⟩ := r1
    obtain ⟨pre1, e1⟩ := parse_version_number_suffix s s1 n1 h1
    by_cases d1 : peek s1 = 46
    · simp only [d1, ne_eq, not_true_eq_false, if_false]
      cases h2 : parse_version_number s1.tail with
      | none => rfl
      | some r2 =>
        obtain ⟨n2, s2⟩ := r2
        obtain ⟨pre2, e2⟩ := parse_version_number_suffix s1.tail s2 n2 h2
        by_cases d2 : peek s2 = 46
        · exfalso
          have c1 := peek_dot s1 d1
          have c2 := peek_dot s2 d2
          rw [e1, c1, e2, c2] at h
          simp only [List.count_append, List.count_cons_self] at h
          omega
        · simp [d2]
    · simp [d1]

theorem loop_rest (ds rest : CStr) (hd : all_digits ds) (hr : digitp rest = false) :
    ∀ val : Int, (parse_version_number_loop val (ds ++ rest)).2 = rest := by
  induction ds with
  | nil => intro val; rw [List.nil_append, loop_stop val rest hr]
  | cons c cs ih =>
    intro val
    have hc : digitp (c :: (cs ++ rest)) = true :=
      (digitp_cons c _).2 (hd c (List.mem_cons_self c cs))
    rw [List.cons_append, parse_version_number_loop, if_pos hc]
    exact ih (fun x hx => hd x (List.mem_cons_of_mem c hx)) _

theorem parse_version_number_rest (ds rest r : CStr) (n : Int) (hd : all_digits ds)
    (hr : digitp rest = false) (h : parse_version_number (ds ++ rest) = some (n, r)) :
    r = rest := by
  have := loop_rest ds rest hd hr 0
  rw [parse_version_number_some _ r n h] at this
  exact this

theorem parse_version_number_leading_zero (d : Nat) (rest : CStr) (hd : 48 ≤ d ∧ d ≤ 57) :
    parse_version_number (48 :: d :: rest) = none := by
  have : digitp (d :: rest) = true := (digitp_cons d rest).2 hd
  simp [parse_version_number, peek, this]

theorem digitp_dot (r : CStr) : digitp (46 :: r) = false := by
  simp [digitp, peek]

theorem parse_version_string_zero_major (d : Nat) (rest : CStr) (hd : 48 ≤ d ∧ d ≤ 57) :
    parse_version_string (48 :: d :: rest) = none := by
  simp [parse_version_string, parse_version_number_leading_zero d rest hd]

theorem parse_version_string_zero_minor (ds1 : CStr) (d : Nat) (rest : CStr)
    (h1 : all_digits ds1) (hd : 48 ≤ d ∧ d ≤ 57) :
    parse_version_string (ds1 ++ 46 :: 48 :: d :: rest) = none := by
  unfold parse_version_string
  cases hp : parse_version_number (ds1 ++ 46 :: 48 :: d :: rest) with
  | none => rfl
  | some r =>
    obtain ⟨n, s⟩ := r
    have hs := parse_version_number_rest ds1 _ s n h1 (digitp_dot _) hp
    subst hs
    simp [peek, parse_version_number_leading_zero d rest hd]

theorem parse_version_string_zero_micro (ds1 ds2 : CStr) (d : Nat) (rest : CStr)
    (h1 : all_digits ds1) (h2 : all_digits ds2) (hd : 48 ≤ d ∧ d ≤ 57) :
    parse_version_string (ds1 ++ 46 :: (ds2 ++ 46 :: 48 :: d :: rest)) = none := by
  unfold parse_version_string
  cases hp : parse_version_number (ds1 ++ 46 :: (ds2 ++ 46 :: 48 :: d :: rest)) with
  | none => rfl
  | some r =>
    obtain ⟨n, s⟩ := r
    have hs := parse_version_number_rest ds1 _ s n h1 (digitp_dot _) hp
    subst hs
    simp only [peek, List.headD_cons, ne_eq, not_true_eq_false, if_false, List.tail_cons]
    cases hq : parse_version_number (ds2 ++ 46 :: 48 :: d :: rest) with
    | none => rfl
    | some r' =>
      obtain ⟨n', s'⟩ := r'
      have hs' := parse_version_number_rest ds2 _ s' n' h2 (digitp_dot _) hq
      subst hs'
      simp [parse_version_number_leading_zero d rest hd]

/-! ## Hex printing: lemmas -/

theorem nibbles (b : Nat) (h : b < 256) :
    (b >>> 4) &&& 15 = b / 16 ∧ b &&& 15 = b % 16 := by
  have h1 : b >>> 4 = b / 16 := by rw [Nat.shiftRight_eq_div_pow]
  have h2 : ∀ x : Nat, x &&& 15 = x % 16 := fun x => Nat.and_pow_two_sub_one_eq_mod x 4
  rw [h2, h2, h1]
  exact ⟨Nat.mod_eq_of_lt (by omega), rfl⟩

theorem tohex_digit (n : Nat) (h : n < 16) :
    tohex n = (cstr "0123456789ABCDEF").getD n 0 ∧ hex_value (tohex n) = some n := by
  interval_cases n <;> exact ⟨by decide, by decide⟩

theorem print_hexstring_loop_encode : ∀ (length : Nat) (fp s : List Nat),
    length ≤ s.length →
      print_hexstring_loop fp s length = fp ++ hex_encode (s.take length) := by
  intro length
  induction length with
  | zero => intro fp s _; simp [print_hexstring_loop, hex_encode]
  | succ n ih =>
    intro fp s hlen
    cases s with
    | nil => simp at hlen
    | cons b bs =>
      have hn : n ≤ bs.length := by simpa using hlen
      simp only [print_hexstring_loop, List.headD_cons, List.tail_cons, List.take_succ_cons,
        hex_encode, hex_pair, putc]
      rw [ih _ bs hn]
      simp

theorem hex_encode_length (bs : List Nat) : (hex_encode bs).length = 2 * bs.length := by
  induction bs with
  | nil => rfl
  | cons b bs ih => simp [hex_encode, hex_pair, ih]; omega

theorem hex_decode_encode (bs : List Nat) (hb : ∀ b ∈ bs, b < 256) :
    hex_decode (hex_encode bs) = some bs := by
  induction bs with
  | nil => rfl
  | cons b bs ih =>
    have hlt : b < 256 := hb b (List.mem_cons_self b bs)
    have hn := nibbles b hlt
    have hhi := (tohex_digit (b / 16) (by omega)).2
    have hlo := (tohex_digit (b % 16) (by omega)).2
    have ih' := ih (fun x hx => hb x (List.mem_cons_of_mem b hx))
    have key : hex_pair b = [tohex (b / 16), tohex (b % 16)] := by rw [hex_pair, hn.1, hn.2]
    rw [hex_encode, key]
    show hex_decode (tohex (b / 16) :: tohex (b % 16) :: hex_encode bs) = some (b :: bs)
    rw [hex_decode, hhi, hlo, ih']
    simp only [Option.some.injEq, List.cons.injEq, and_true]
    exact Nat.div_add_mod' b 16

theorem hex_encode_getD (bs : List Nat) (hb : ∀ b ∈ bs, b < 256) : ∀ i, i < bs.length →
    (hex_encode bs).getD (2 * i) 0 = (cstr "0123456789ABCDEF").getD (bs.getD i 0 / 16) 0
    ∧ (hex_encode bs).getD (2 * i + 1) 0
        = (cstr "0123456789ABCDEF").getD (bs.getD i 0 % 16) 0 := by
  induction bs with
  | nil => intro i hi; simp at hi
  | cons b bs ih =>
    intro i hi
    have hlt : b < 256 := hb b (List.mem_cons_self b bs)
    have hn := nibbles b hlt
    cases i with
    | zero =>
      have key : hex_pair b = [tohex (b / 16), tohex (b % 16)] := by rw [hex_pair, hn.1, hn.2]
      simp only [hex_encode, key, List.cons_append, List.nil_append, Nat.mul_zero,
        List.getD_cons_zero, Nat.zero_add, List.getD_cons_succ]
      exact ⟨(tohex_digit (b / 16) (by omega)).1, (tohex_digit (b % 16) (by omega)).1⟩
    | succ j =>
      have hj : j < bs.length := by simpa using hi
      have := ih (fun x hx => hb x (List.mem_cons_of_mem b hx)) j hj
      have e1 : 2 * (j + 1) = (2 * j) + 1 + 1 := by omega
      have e2 : 2 * (j + 1) + 1 = (2 * j + 1) + 1 + 1 := by omega
      rw [e2, e1]
      simpa only [hex_encode, hex_pair, List.cons_append, List.nil_append,
        List.getD_cons_succ] using this

/-! ## Multi-string matching: lemmas -/

theorem strcspn_split (s : CStr) :
    ∃ seg rest, s = seg ++ rest ∧ strcspn s [124] = seg.length
      ∧ (∀ c ∈ seg, c ≠ 0 ∧ c ≠ 124)
      ∧ (rest = [] ∨ ∃ r, rest = 0 :: r ∨ rest = 124 :: r) := by
  induction s with
  | nil => exact ⟨[], [], rfl, rfl, by simp, Or.inl rfl⟩
  | cons c cs ih =>
    by_cases hc : c = 0 ∨ c ∈ ([124] : CStr)
    · refine ⟨[], c :: cs, rfl, by rw [strcspn, if_pos hc]; rfl, by simp, Or.inr ⟨cs, ?_⟩⟩
      rcases hc with h | h
      · left; rw [h]
      · right; simp at h; rw [h]
    · obtain ⟨seg, rest, he, hl, hs, hr⟩ := ih
      refine ⟨c :: seg, rest, by rw [he]; rfl, by rw [strcspn, if_neg hc, hl]; rfl, ?_, hr⟩
      intro x hx
      rcases List.mem_cons.1 hx with h | h
      · subst h
        exact ⟨fun h0 => hc (Or.inl h0), fun h1 => hc (Or.inr (by simp [h1]))⟩
      · exact hs x h

theorem segments_append (seg rest : CStr) (hs : ∀ c ∈ seg, c ≠ 0 ∧ c ≠ 124)
    (hr : rest = [] ∨ ∃ r, rest = 0 :: r ∨ rest = 124 :: r) :
    segments (seg ++ rest)
      = seg :: (match rest with
                | [] => []
                | c :: r => if c = 124 then segments r else []) := by
  induction seg with
  | nil =>
    rcases hr with rfl | ⟨r, rfl | rfl⟩
    · simp [segments]
    · simp [segments]
    · simp [segments]
  | cons c cs ih =>
    have hc := hs c (List.mem_cons_self c cs)
    have ih' := ih (fun x hx => hs x (List.mem_cons_of_mem c hx))
    rw [List.cons_append, segments, if_neg hc.1, if_neg hc.2, ih']

theorem tolower_ne_zero (c : Nat) (h : c ≠ 0) : tolower c ≠ 0 := by
  unfold tolower; split_ifs <;> omega

theorem strncasecmp_begins (seg : CStr) (hs : ∀ c ∈ seg, c ≠ 0) : ∀ (rest m : CStr),
    strncasecmp (seg ++ rest) m seg.length = 0 ↔ begins_nocase seg m := by
  induction seg with
  | nil => intro rest m; simp [strncasecmp, begins_nocase]
  | cons c cs ih =>
    intro rest m
    have hc : c ≠ 0 := hs c (List.mem_cons_self c cs)
    have hl := tolower_ne_zero c hc
    have ih' := ih (fun x hx => hs x (List.mem_cons_of_mem c hx)) rest
    cases m with
    | nil =>
      have h0 : tolower 0 = 0 := by decide
      simp only [List.cons_append, List.length_cons, strncasecmp, peek, List.headD_cons,
        List.headD_nil, h0, begins_nocase, List.length_nil]
      rw [if_pos hl]
      constructor
      · intro h; omega
      · intro h; omega
    | cons d ds =>
      simp only [List.cons_append, List.length_cons, strncasecmp, peek, List.headD_cons,
        List.tail_cons, begins_nocase, List.take_succ_cons, List.map_cons, List.cons.injEq,
        Nat.add_le_add_iff_right]
      by_cases hcd : tolower c = tolower d
      · rw [if_neg (by simpa using hcd), if_neg hc, ih' ds]
        simp only [begins_nocase]
        constructor
        · rintro ⟨h1, h2⟩; exact ⟨h1, hcd.symm, h2⟩
        · rintro ⟨h1, _, h2⟩; exact ⟨h1, h2⟩
      · rw [if_pos hcd]
        constructor
        · intro h; omega
        · rintro ⟨_, h, _⟩; exact absurd h.symm hcd

theorem tried_segments_append (seg rest : CStr) (hs : ∀ c ∈ seg, c ≠ 0 ∧ c ≠ 124)
    (hr : rest = [] ∨ ∃ r, rest = 0 :: r ∨ rest = 124 :: r) (hne : seg ≠ []) :
    tried_segments (seg ++ rest)
      = seg :: (match rest with
                | [] => []
                | c :: r => if c = 124 then tried_segments r else []) := by
  unfold tried_segments
  rw [segments_append seg rest hs hr]
  have : (!seg.isEmpty) = true := by
    cases seg with
    | nil => exact absurd rfl hne
    | cons a b => rfl
  rw [List.takeWhile_cons, this, if_pos rfl]
  rcases hr with rfl | ⟨r, rfl | rfl⟩
  · rfl
  · simp
  · simp

theorem tried_segments_stop (s : CStr) (h : peek s = 0 ∨ peek s = 124) :
    tried_segments s = [] := by
  cases s with
  | nil => rfl
  | cons c cs =>
    simp only [peek, List.headD_cons] at h
    rcases h with h | h
    · simp [tried_segments, segments, h]
    · simp [tried_segments, segments, h]

/-- The loop returns, and returns `1` exactly when one of the tried
segments is a prefix of `mtch` ignoring case. -/
theorem match_multistr_loop_spec (mtch : CStr) : ∀ (fuel : Nat) (s : CStr),
    s.length < fuel →
      match_multistr_loop fuel s mtch
        = some (if ∃ seg ∈ tried_segments s, begins_nocase seg mtch then 1 else 0) := by
  intro fuel
  induction fuel with
  | zero => intro s h; omega
  | succ fuel ih =>
    intro s hlen
    obtain ⟨seg, rest, rfl, hl, hs, hr⟩ := strcspn_split s
    rw [match_multistr_loop]
    simp only [hl]
    by_cases hne : seg = []
    · subst hne
      have hstop : tried_segments ([] ++ rest) = [] := by
        apply tried_segments_stop
        rcases hr with rfl | ⟨r, rfl | rfl⟩
        · left; rfl
        · left; rfl
        · right; rfl
      rw [List.nil_append] at hstop
      simp [hstop]
    · have hpos : seg.length ≠ 0 := by
        intro h; exact hne (List.length_eq_zero.1 h)
      rw [if_neg hpos, tried_segments_append seg rest hs hr hne]
      by_cases hm : begins_nocase seg mtch
      · rw [if_pos ((strncasecmp_begins seg (fun c hc => (hs c hc).1) rest mtch).2 hm)]
        rw [if_pos ⟨seg, List.mem_cons_self _ _, hm⟩]
      · rw [if_neg (fun h => hm ((strncasecmp_begins seg (fun c hc => (hs c hc).1) rest mtch).1 h))]
        rw [List.drop_left]
        rcases hr with rfl | ⟨r, rfl | rfl⟩
        · simp [peek, hm]
        · simp [peek, hm]
        · have hr_len : r.length < fuel := by
            simp only [List.length_append, List.length_cons] at hlen
            omega
          simp only [peek, List.headD_cons, if_true, List.tail_cons]
          by_cases hz : r.headD 0 = 0
          · have : tried_segments r = [] := tried_segments_stop r (Or.inl hz)
            rw [if_neg (by simpa using hz)]
            simp [this, hm]
          · rw [if_pos hz, ih r hr_len]
            simp [hm]

theorem match_multistr_spec (multistr mtch : CStr) :
    match_multistr multistr mtch
      = some (if ∃ seg ∈ tried_segments multistr, begins_nocase seg mtch then 1 else 0) :=
  match_multistr_loop_spec mtch (multistr.length + 1) multistr (Nat.lt_succ_self _)

/-! ## Compressed file detection: lemmas -/

theorem memcmp_zero (a b : List Nat) : memcmp a b 0 = 0 := by
  cases a <;> cases b <;> rfl

theorem memcmp_cons (x y : Nat) (xs ys : List Nat) (n : Nat) :
    memcmp (x :: xs) (y :: ys) (n + 1) = 0 ↔ x = y ∧ memcmp xs ys n = 0 := by
  simp only [memcmp, List.headD_cons, List.tail_cons]
  by_cases h : x = y
  · simp [h]
  · simp only [h, ne_eq, not_false_eq_true, if_true, false_and, iff_false]
    omega

theorem is_file_compressed_loop_sets_rc (buf : List Nat) (rc0 : Int) :
    ∀ ms : List magic_compress_s,
      (is_file_compressed_loop buf rc0 ms).1 = 1 → (is_file_compressed_loop buf rc0 ms).2 = 0 := by
  intro ms
  induction ms with
  | nil => intro h; simp [is_file_compressed_loop] at h
  | cons m ms ih =>
    intro h
    unfold is_file_compressed_loop at h ⊢
    split_ifs at h ⊢ with hm
    · rfl
    · exact ih h

theorem is_file_compressed_sets_rc (fs : file_system) (s : Option CStr) (ret_rc : Option Int)
    (h : (is_file_compressed fs s ret_rc).1 = 1) :
    (is_file_compressed fs s ret_rc).2 = some 0 := by
  unfold is_file_compressed at h ⊢
  split_ifs at h ⊢ with hp
  · simp at h
  · cases ho : fs.iobuf_open s with
    | none => rw [ho] at h; simp at h
    | some a =>
      rw [ho] at h
      dsimp only at h ⊢
      split_ifs at h ⊢ with hl
      · simp at h
      · cases hr : a.read with
        | none => rw [hr] at h; simp at h
        | some bytes =>
          rw [hr] at h
          dsimp only at h ⊢
          rw [is_file_compressed_loop_sets_rc _ _ _ h]

theorem is_file_compressed_loop_magic (b0 b1 b2 b3 : Nat) (rest : List Nat) (rc0 : Int) :
    is_file_compressed_loop ([b0, b1, b2, b3] ++ rest) rc0 magic
      = if (b0 = 0x42 ∧ b1 = 0x5a ∧ b2 = 0x68) ∨ (b0 = 0x1f ∧ b1 = 0x8b ∧ b2 = 0x08)
            ∨ (b0 = 0x50 ∧ b1 = 0x4b ∧ b2 = 0x03 ∧ b3 = 0x04)
        then (1, 0) else (0, rc0) := by
  have m1 : (memcmp (b0 :: b1 :: b2 :: b3 :: rest) [0x42, 0x5a, 0x68, 0x00] 3 = 0)
      = (b0 = 0x42 ∧ b1 = 0x5a ∧ b2 = 0x68) :=
    propext (by simp only [memcmp_cons, memcmp_zero, and_true])
  have m2 : (memcmp (b0 :: b1 :: b2 :: b3 :: rest) [0x1f, 0x8b, 0x08, 0x00] 3 = 0)
      = (b0 = 0x1f ∧ b1 = 0x8b ∧ b2 = 0x08) :=
    propext (by simp only [memcmp_cons, memcmp_zero, and_true])
  have m3 : (memcmp (b0 :: b1 :: b2 :: b3 :: rest) [0x50, 0x4b, 0x03, 0x04] 4 = 0)
      = (b0 = 0x50 ∧ b1 = 0x4b ∧ b2 = 0x03 ∧ b3 = 0x04) :=
    propext (by simp only [memcmp_cons, memcmp_zero, and_true])
  simp only [magic, is_file_compressed_loop, List.cons_append, List.nil_append, m1, m2, m3]
  by_cases h1 : b0 = 0x42 ∧ b1 = 0x5a ∧ b2 = 0x68
  · rw [if_pos h1, if_pos (Or.inl h1)]
  · rw [if_neg h1]
    by_cases h2 : b0 = 0x1f ∧ b1 = 0x8b ∧ b2 = 0x08
    · rw [if_pos h2, if_pos (Or.inr (Or.inl h2))]
    · rw [if_neg h2]
      by_cases h3 : b0 = 0x50 ∧ b1 = 0x4b ∧ b2 = 0x03 ∧ b3 = 0x04
      · rw [if_pos h3, if_pos (Or.inr (Or.inr h3))]
      · rw [if_neg h3, if_neg (fun h => h.elim h1 (fun h' => h'.elim h2 h3))]

/-! ## The out-of-core handler: lemmas -/

theorem handler_been_here (st : handler_state) (c : invocation) (h : st.been_here ≠ 0) :
    my_gcry_outofcore_handler st c = (st, [0]) := by
  cases c with
  | call req_n flags during_log => rw [my_gcry_outofcore_handler, if_neg h]

theorem handler_calls_been_here (st : handler_state) (h : st.been_here ≠ 0) :
    ∀ cs : List invocation,
      my_gcry_outofcore_handler_calls st cs = (st, List.replicate cs.length 0) := by
  intro cs
  induction cs with
  | nil => rw [my_gcry_outofcore_handler_calls]; rfl
  | cons c cs ih =>
    rw [my_gcry_outofcore_handler_calls, handler_been_here st c h]
    simp only [ih, List.length_cons, List.replicate_succ, List.singleton_append]

/-! ## Version comparison: the specification -/

/-- C1: for version strings `a` and `b` of the form
`<major>.<minor>.<micro><patchlevel>` (numbers in `int` range, patch level
not starting with a digit), `gnupg_compare_version (a, b)` is true exactly
when the number triple of `a` is lexicographically greater than that of `b`,
or the triples are equal and `strcmp` of the patch levels is `>= 0`; the
result is always `0` or `1`. -/
theorem gnupg_compare_version_at_least (M1 m1 u1 M2 m2 u2 : Nat) (p1 p2 : CStr)
    (hM1 : M1 < 2147483648) (hm1 : m1 < 2147483648) (hu1 : u1 < 2147483648)
    (hM2 : M2 < 2147483648) (hm2 : m2 < 2147483648) (hu2 : u2 < 2147483648)
    (hp1 : digitp p1 = false) (hp2 : digitp p2 = false) :
    (gnupg_compare_version (some (version_string M1 m1 u1 p1))
        (some (version_string M2 m2 u2 p2)) = 1
      ↔ (M1 > M2 ∨ (M1 = M2 ∧ m1 > m2) ∨ (M1 = M2 ∧ m1 = m2 ∧ u1 > u2))
          ∨ (M1 = M2 ∧ m1 = m2 ∧ u1 = u2 ∧ strcmp p1 p2 ≥ 0))
    ∧ (gnupg_compare_version (some (version_string M1 m1 u1 p1))
        (some (version_string M2 m2 u2 p2)) = 0
      ↔ ¬ ((M1 > M2 ∨ (M1 = M2 ∧ m1 > m2) ∨ (M1 = M2 ∧ m1 = m2 ∧ u1 > u2))
          ∨ (M1 = M2 ∧ m1 = m2 ∧ u1 = u2 ∧ strcmp p1 p2 ≥ 0))) := by
  have ha := parse_version_string_format M1 m1 u1 p1 hM1 hm1 hu1 hp1
  have hb := parse_version_string_format M2 m2 u2 p2 hM2 hm2 hu2 hp2
  rw [compare_of_parsed _ _ _ _ ha hb]
  have hiff : version_ge ((M1 : Int), (m1 : Int), (u1 : Int), p1)
        ((M2 : Int), (m2 : Int), (u2 : Int), p2)
      ↔ (M1 > M2 ∨ (M1 = M2 ∧ m1 > m2) ∨ (M1 = M2 ∧ m1 = m2 ∧ u1 > u2))
          ∨ (M1 = M2 ∧ m1 = m2 ∧ u1 = u2 ∧ strcmp p1 p2 ≥ 0) := by
    simp only [version_ge, gt_iff_lt, Nat.cast_lt, Nat.cast_inj, ge_iff_le]
    tauto
  rw [← hiff]
  by_cases h : version_ge ((M1 : Int), (m1 : Int), (u1 : Int), p1)
      ((M2 : Int), (m2 : Int), (u2 : Int), p2)
  · simp [h]
  · simp [h]

/-- Witness of C1: the examples `2.0.19` against `2.0.9`, both ways round. -/
theorem gnupg_compare_version_at_least_witness :
    gnupg_compare_version (some (cstr "2.0.19")) (some (cstr "2.0.9")) = 1
    ∧ gnupg_compare_version (some (cstr "2.0.9")) (some (cstr "2.0.19")) = 0 :=
  ⟨(gnupg_compare_version_at_least 2 0 19 2 0 9 [] [] (by decide) (by decide) (by decide)
      (by decide) (by decide) (by decide) (by decide) (by decide)).1.2 (by decide),
   (gnupg_compare_version_at_least 2 0 9 2 0 19 [] [] (by decide) (by decide) (by decide)
      (by decide) (by decide) (by decide) (by decide) (by decide)).2.2 (by decide)⟩

/-- In `int` range the loop of `parse_version_number` does not wrap: it
returns the value of the leading digits and stops right after them. -/
theorem parse_version_number_loop_exact (s : CStr)
    (h : digits_value (leading_digits s) < 2147483648) :
    parse_version_number_loop 0 s = ((digits_value (leading_digits s) : Int), after_digits s) := by
  have hsplit : leading_digits s ++ after_digits s = s := List.takeWhile_append_dropWhile _ s
  have hd : all_digits (leading_digits s) := by
    intro c hc
    simpa using List.mem_takeWhile_imp hc
  have hr : digitp (after_digits s) = false := by
    unfold after_digits
    cases hdrop : s.dropWhile (fun c => decide (48 ≤ c ∧ c ≤ 57)) with
    | nil => rfl
    | cons c cs =>
      have hc := List.head_dropWhile_not (fun c => decide (48 ≤ c ∧ c ≤ 57)) s
        (by rw [hdrop]; simp)
      simp only [hdrop, List.head_cons] at hc
      cases hdig : digitp (c :: cs) with
      | false => rfl
      | true =>
        have := (digitp_cons c cs).1 hdig
        simp [this] at hc
  have hloop := loop_digits (leading_digits s) (after_digits s) hd hr 0 h
  rw [hsplit] at hloop
  simpa [digits_value] using hloop

/-- C3: parsing undoes formatting.  For `M`, `m`, `u` below `2^31` and a
patch level `p` that does not begin with a decimal digit,
`parse_version_string` succeeds on `M.m.u` followed by `p`, stores the
three numbers, and returns exactly the suffix `p`. -/
theorem parse_version_string_roundtrip (M m u : Nat) (p : CStr)
    (hM : M < 2147483648) (hm : m < 2147483648) (hu : u < 2147483648)
    (hp : digitp p = false) :
    parse_version_string (decimal M ++ cstr "." ++ decimal m ++ cstr "." ++ decimal u ++ p)
      = some ((M : Int), (m : Int), (u : Int), p) := by
  have h := parse_version_string_format M m u p hM hm hu hp
  have e : decimal M ++ cstr "." ++ decimal m ++ cstr "." ++ decimal u ++ p
      = version_string M m u p := by
    have hdot : cstr "." = [46] := rfl
    simp [version_string, hdot]
  rw [e]
  exact h

/-- Witness of C3: `2147483647.0.19-beta1`. -/
theorem parse_version_string_roundtrip_witness :
    parse_version_string
        (decimal 2147483647 ++ cstr "." ++ decimal 0 ++ cstr "." ++ decimal 19 ++ cstr "-beta1")
      = some (2147483647, 0, 19, cstr "-beta1") :=
  parse_version_string_roundtrip 2147483647 0 19 (cstr "-beta1")
    (by decide) (by decide) (by decide) (by decide)

/-- C4: the relation `gnupg_compare_version (a, b) = 1` is transitive, for
all arguments (`NULL` and invalid strings included). -/
theorem gnupg_compare_version_trans (a b c : Option CStr)
    (hab : gnupg_compare_version a b = 1) (hbc : gnupg_compare_version b c = 1) :
    gnupg_compare_version a c = 1 := by
  obtain ⟨s, t, x, y, rfl, rfl, hs, ht, hxy⟩ := (compare_eq_one_iff a b).1 hab
  obtain ⟨t', r, y', z, ht', rfl, hty, hr, hyz⟩ := (compare_eq_one_iff _ c).1 hbc
  injection ht' with ht'
  subst ht'
  rw [ht] at hty
  injection hty with hty
  subst hty
  exact (compare_eq_one_iff _ _).2 ⟨s, r, x, z, rfl, rfl, hs, hr, version_ge_trans x y z hxy hyz⟩

/-- Witness of C4: `2.1.0rc` is at least `2.0.19`, which is at least `2.0.9`. -/
theorem gnupg_compare_version_trans_witness :
    gnupg_compare_version (some (cstr "2.1.0rc")) (some (cstr "2.0.9")) = 1 :=
  gnupg_compare_version_trans (some (cstr "2.1.0rc")) (some (cstr "2.0.19"))
    (some (cstr "2.0.9")) (by decide) (by decide)

/-- C5: on strings that parse, `gnupg_compare_version` is total, and every
valid version is at least itself. -/
theorem gnupg_compare_version_total (a b : CStr)
    (ha : parse_version_string a ≠ none) (hb : parse_version_string b ≠ none) :
    (gnupg_compare_version (some a) (some b) = 1 ∨ gnupg_compare_version (some b) (some a) = 1)
    ∧ gnupg_compare_version (some a) (some a) = 1 := by
  obtain ⟨x, hx⟩ := Option.ne_none_iff_exists'.1 ha
  obtain ⟨y, hy⟩ := Option.ne_none_iff_exists'.1 hb
  refine ⟨?_, ?_⟩
  · rcases version_ge_total x y with h | h
    · left
      rw [compare_of_parsed a b x y hx hy, if_pos h]
    · right
      rw [compare_of_parsed b a y x hy hx, if_pos h]
  · rw [compare_of_parsed a a x x hx hx, if_pos (version_ge_refl x)]

/-- Witness of C5: `2.0.19a` and `2.0.19b`. -/
theorem gnupg_compare_version_total_witness :
    (gnupg_compare_version (some (cstr "2.0.19a")) (some (cstr "2.0.19b")) = 1
      ∨ gnupg_compare_version (some (cstr "2.0.19b")) (some (cstr "2.0.19a")) = 1)
    ∧ gnupg_compare_version (some (cstr "2.0.19a")) (some (cstr "2.0.19a")) = 1 :=
  gnupg_compare_version_total (cstr "2.0.19a") (cstr "2.0.19b") (by decide) (by decide)

/-- C6: leading zeros are not allowed.  `parse_version_number` returns `NULL`
on `0` followed by a digit `d`, and accepts `0` followed by a non-digit with
value `0`; `gnupg_compare_version` returns `0`, on either side, for a string
whose major, minor or micro component starts with `0` followed by a digit;
so `1.02.3` is not at least `1.0.0` although `1.2.3` is. -/
theorem leading_zero_rejected (d : Nat) (rest stop ds1 ds2 : CStr) (other : Option CStr)
    (hd : 48 ≤ d ∧ d ≤ 57) (hstop : digitp stop = false)
    (h1 : all_digits ds1) (h2 : all_digits ds2) :
    parse_version_number (48 :: d :: rest) = none
    ∧ parse_version_number (48 :: stop) = some (0, stop)
    ∧ (∀ s ∈ [48 :: d :: rest, ds1 ++ 46 :: 48 :: d :: rest,
              ds1 ++ 46 :: (ds2 ++ 46 :: 48 :: d :: rest)],
        gnupg_compare_version (some s) other = 0 ∧ gnupg_compare_version other (some s) = 0)
    ∧ gnupg_compare_version (some (cstr "1.02.3")) (some (cstr "1.0.0")) = 0
    ∧ gnupg_compare_version (some (cstr "1.2.3")) (some (cstr "1.0.0")) = 1 := by
  refine ⟨parse_version_number_leading_zero d rest hd, ?_, ?_, by decide, by decide⟩
  · have hz : parse_version_number ([48] ++ stop) = some ((digits_value [48] : Int), stop) :=
      parse_version_number_digits [48] stop (by intro c hc; simp at hc; omega)
        (by intro d tl h; cases h) (by decide) hstop
    simpa [digits_value] using hz
  · intro s hs
    have hnone : parse_version_string s = none := by
      simp only [List.mem_cons, List.mem_singleton, List.not_mem_nil, or_false] at hs
      rcases hs with rfl | rfl | rfl
      · exact parse_version_string_zero_major d rest hd
      · exact parse_version_string_zero_minor ds1 d rest h1 hd
      · exact parse_version_string_zero_micro ds1 ds2 d rest h1 h2 hd
    exact ⟨compare_invalid_left s other hnone, compare_invalid_right other s hnone⟩

/-- Witness of C6: the digit `2` after the zero, components `1` and `7`. -/
theorem leading_zero_rejected_witness :
    parse_version_number (cstr "02") = none
    ∧ parse_version_number (cstr "0.1") = some (0, cstr ".1")
    ∧ gnupg_compare_version (some (cstr "1.7.02")) (some (cstr "1.0.0")) = 0 := by
  have h := leading_zero_rejected 50 [] (cstr ".1") (cstr "1") (cstr "7") (some (cstr "1.0.0"))
    (by decide) (by decide) (by decide) (by decide)
  exact ⟨h.1, h.2.1, (h.2.2.1 (cstr "1.7.02") (by decide)).1⟩

/-! ## Compressed files, hex strings, multi-strings, out of core -/

/-- C7: for a file name that is not a pipe name, a non-`NULL` `ret_rc`, a
file that opens, is at least 4 bytes long and whose first 4 bytes
`b0 b1 b2 b3` are read, `is_file_compressed` returns `1` exactly when the
file begins with `42 5A 68`, `1F 8B 08` or `50 4B 03 04`, and `0`
otherwise; and whenever it returns `1` (on any input) `*ret_rc` is `0`. -/
theorem is_file_compressed_magic (fs : file_system) (s : Option CStr) (rc0 : Int) (a : iobuf)
    (b0 b1 b2 b3 : Nat)
    (hpipe : fs.iobuf_is_pipe_filename s = false) (hopen : fs.iobuf_open s = some a)
    (hlen : 4 ≤ a.filelength) (hread : a.read = some [b0, b1, b2, b3]) :
    ((is_file_compressed fs s (some rc0)).1 = 1
      ↔ (b0 = 0x42 ∧ b1 = 0x5a ∧ b2 = 0x68) ∨ (b0 = 0x1f ∧ b1 = 0x8b ∧ b2 = 0x08)
          ∨ (b0 = 0x50 ∧ b1 = 0x4b ∧ b2 = 0x03 ∧ b3 = 0x04))
    ∧ ((is_file_compressed fs s (some rc0)).1 = 0
      ↔ ¬ ((b0 = 0x42 ∧ b1 = 0x5a ∧ b2 = 0x68) ∨ (b0 = 0x1f ∧ b1 = 0x8b ∧ b2 = 0x08)
          ∨ (b0 = 0x50 ∧ b1 = 0x4b ∧ b2 = 0x03 ∧ b3 = 0x04)))
    ∧ (∀ (fs' : file_system) (s' : Option CStr) (ret_rc : Option Int),
        (is_file_compressed fs' s' ret_rc).1 = 1 → (is_file_compressed fs' s' ret_rc).2 = some 0) := by
  have hl : ¬ (a.filelength < 4 ∧ a.overflow = false) := by omega
  have hval : (is_file_compressed fs s (some rc0)).1
      = (is_file_compressed_loop ([b0, b1, b2, b3] ++ fs.buf.drop 4) rc0 magic).1 := by
    have hp : ¬ (fs.iobuf_is_pipe_filename s = true ∨ some rc0 = none) := by
      rw [hpipe]; simp
    simp only [is_file_compressed, if_neg hp, hopen, hread, if_neg hl]
    rfl
  rw [hval, is_file_compressed_loop_magic]
  refine ⟨?_, ?_, is_file_compressed_sets_rc⟩
  · split_ifs with h
    · exact ⟨fun _ => h, fun _ => rfl⟩
    · exact ⟨fun e => by dsimp only at e; omega, fun e => absurd e h⟩
  · split_ifs with h
    · exact ⟨fun e => by dsimp only at e; omega, fun e => absurd h e⟩
    · exact ⟨fun _ => h, fun _ => rfl⟩

/-- Witness of C7: a gzip file (`1F 8B 08 00`) is reported as compressed and
`*ret_rc`, `-1` before the call, is set to `0`. -/
theorem is_file_compressed_magic_witness :
    is_file_compressed
        ⟨fun _ => false, fun _ => some ⟨20, false, some [0x1f, 0x8b, 0x08, 0x00], 0⟩, 0,
          [0, 0, 0, 0]⟩
        (some (cstr "a.gz")) (some (-1))
      = (1, some 0) := by
  have h := is_file_compressed_magic
    ⟨fun _ => false, fun _ => some ⟨20, false, some [0x1f, 0x8b, 0x08, 0x00], 0⟩, 0,
      [0, 0, 0, 0]⟩
    (some (cstr "a.gz")) (-1) ⟨20, false, some [0x1f, 0x8b, 0x08, 0x00], 0⟩
    0x1f 0x8b 0x08 0x00 rfl rfl (by decide) rfl
  have h1 := h.1.2 (by decide)
  exact Prod.ext h1 (h.2.2 _ _ _ h1)

/-- C8: `print_hexstring` appends to the stream exactly `2 * n` characters
for a buffer of `n` bytes; byte `i` is written as the characters of
`0123456789ABCDEF` at the indices of its high and then its low nibble;
hex-decoding what was written gives back the buffer; and the value of
`reserved` does not matter. -/
theorem print_hexstring_hex (fp buffer : List Nat) (reserved reserved' : Int)
    (hb : ∀ b ∈ buffer, b < 256) :
    print_hexstring fp buffer buffer.length reserved
        = fp ++ (print_hexstring fp buffer buffer.length reserved).drop fp.length
    ∧ ((print_hexstring fp buffer buffer.length reserved).drop fp.length).length
        = 2 * buffer.length
    ∧ (∀ i, i < buffer.length →
        ((print_hexstring fp buffer buffer.length reserved).drop fp.length).getD (2 * i) 0
            = (cstr "0123456789ABCDEF").getD (buffer.getD i 0 / 16) 0
        ∧ ((print_hexstring fp buffer buffer.length reserved).drop fp.length).getD (2 * i + 1) 0
            = (cstr "0123456789ABCDEF").getD (buffer.getD i 0 % 16) 0)
    ∧ hex_decode ((print_hexstring fp buffer buffer.length reserved).drop fp.length)
        = some buffer
    ∧ print_hexstring fp buffer buffer.length reserved'
        = print_hexstring fp buffer buffer.length reserved := by
  have h : ∀ r : Int, print_hexstring fp buffer buffer.length r = fp ++ hex_encode buffer := by
    intro r
    have := print_hexstring_loop_encode buffer.length fp buffer (Nat.le_refl _)
    rw [List.take_length] at this
    exact this
  rw [h reserved, h reserved', List.drop_left]
  exact ⟨rfl, hex_encode_length buffer, hex_encode_getD buffer hb, hex_decode_encode buffer hb,
    rfl⟩

/-- Witness of C8: the bytes `00 1F A8 FF` after the text `x` are written as
`001FA8FF`. -/
theorem print_hexstring_hex_witness :
    print_hexstring (cstr "x") [0x00, 0x1f, 0xa8, 0xff] 4 0 = cstr "x001FA8FF"
    ∧ hex_decode (cstr "001FA8FF") = some [0x00, 0x1f, 0xa8, 0xff] := by
  have h := print_hexstring_hex (cstr "x") [0x00, 0x1f, 0xa8, 0xff] 0 1 (by decide)
  exact ⟨by decide, h.2.2.2.1⟩

/-- Counterexample to C9 as stated: `yesterday` is not equal, ignoring case,
to any segment of `yes`, yet `match_multistr` returns `1`; and `a` is equal
to a segment of `|a`, yet `match_multistr` returns `0`. -/
theorem match_multistr_not_equality :
    (match_multistr (cstr "yes") (cstr "yesterday") = some 1
      ∧ ¬ ∃ seg ∈ segments (cstr "yes"), case_equal (cstr "yesterday") seg)
    ∧ (match_multistr (cstr "|a") (cstr "a") = some 0
      ∧ ∃ seg ∈ segments (cstr "|a"), case_equal (cstr "a") seg) := by
  decide

/-- C9, amended: `match_multistr` tries `match` against the `|`-delimited
substrings of `multistr` in front of the first empty one; it returns `1` if
and only if one of them is equal, ignoring letter case, to the beginning of
`match` of the same length, and `0` otherwise. -/
theorem match_multistr_tries_beginnings (multistr mtch : CStr) :
    (match_multistr multistr mtch = some 1
      ↔ ∃ seg ∈ tried_segments multistr, begins_nocase seg mtch)
    ∧ (match_multistr multistr mtch = some 0
      ↔ ¬ ∃ seg ∈ tried_segments multistr, begins_nocase seg mtch) := by
  rw [match_multistr_spec]
  by_cases h : ∃ seg ∈ tried_segments multistr, begins_nocase seg mtch
  · simp [h]
  · simp [h]

/-- C10: starting from the initial state, over every sequence of one or more
invocations of `my_gcry_outofcore_handler` (recursive ones included, any
`req_n` and `flags`) exactly one record is logged, at level fatal and by
the first invocation; every invocation that runs returns `0`. -/
theorem outofcore_logged_once (req_n flags : Nat) (during_log later : List invocation) :
    (my_gcry_outofcore_handler_calls handler_state.initial
        (invocation.call req_n flags during_log :: later)).1.log
      = (my_gcry_outofcore_handler handler_state.initial
          (invocation.call req_n flags [])).1.log
    ∧ (my_gcry_outofcore_handler_calls handler_state.initial
        (invocation.call req_n flags during_log :: later)).1.log
      = [⟨jnlib_log_level.JNLIB_LOG_FATAL,
          if flags &&& 1 ≠ 0 then "out of core in secure memory while allocating %lu bytes"
          else "out of core while allocating %lu bytes", req_n⟩]
    ∧ (my_gcry_outofcore_handler_calls handler_state.initial
        (invocation.call req_n flags during_log :: later)).2
      = List.replicate (during_log.length + 1 + later.length) 0 := by
  have h1 : ((⟨1, []⟩ : handler_state)).been_here ≠ 0 := by decide
  have hfirst : ∀ dl : List invocation,
      my_gcry_outofcore_handler handler_state.initial (invocation.call req_n flags dl)
        = (⟨1, [⟨jnlib_log_level.JNLIB_LOG_FATAL,
              if flags &&& 1 ≠ 0 then "out of core in secure memory while allocating %lu bytes"
              else "out of core while allocating %lu bytes", req_n⟩]⟩,
            List.replicate dl.length 0 ++ [0]) := by
    intro dl
    rw [my_gcry_outofcore_handler]
    simp only [handler_state.initial, if_true]
    rw [handler_calls_been_here ⟨1, []⟩ h1 dl]
    split_ifs <;> rfl
  rw [my_gcry_outofcore_handler_calls, hfirst during_log, hfirst []]
  simp only
  rw [handler_calls_been_here _ (show (1 : Int) ≠ 0 by decide) later]
  refine ⟨rfl, rfl, ?_⟩
  rw [List.replicate_add, List.replicate_succ']

/-! ## Cipher names, file names, log levels -/

/-- C11, the code at the failing input: for an algorithm whose libgcrypt
name is `AES`, `gnupg_cipher_algo_name` returns `AES128`, which is not the
string `AES-128` of its documentation; a name other than `AES` is returned
unchanged. -/
theorem gnupg_cipher_algo_name_aes :
    (∀ (gcry_cipher_algo_name : Int → CStr) (algo : Int),
      gcry_cipher_algo_name algo = cstr "AES"
        → gnupg_cipher_algo_name gcry_cipher_algo_name algo = cstr "AES128")
    ∧ (∀ (gcry_cipher_algo_name : Int → CStr) (algo : Int),
      strcmp (gcry_cipher_algo_name algo) (cstr "AES") ≠ 0
        → gnupg_cipher_algo_name gcry_cipher_algo_name algo = gcry_cipher_algo_name algo)
    ∧ cstr "AES128" ≠ cstr "AES-128"
    ∧ gnupg_cipher_algo_name (fun algo => if algo = 7 then cstr "AES" else cstr "AES256") 7
        = cstr "AES128"
    ∧ gnupg_cipher_algo_name (fun algo => if algo = 7 then cstr "AES" else cstr "AES256") 9
        = cstr "AES256" := by
  refine ⟨?_, ?_, by decide, by decide, by decide⟩
  · intro g algo h
    simp only [gnupg_cipher_algo_name, h, strcmp_self, if_true]
  · intro g algo h
    simp only [gnupg_cipher_algo_name, if_neg h]

/-- C12: `print_fname_stdout (s)` returns `[stdout]` when `s` is `NULL` or
the one-character string `-`, and `s` itself in every other case;
`print_fname_stdin` does the same with `[stdin]`.  The strings `""`, `--`
and `-x` are returned as given. -/
theorem print_fname_cases (s : Option CStr) (hs : ∀ t, s = some t → 0 ∉ t) :
    (s = none ∨ s = some (cstr "-")
      → print_fname_stdout s = cstr "[stdout]" ∧ print_fname_stdin s = cstr "[stdin]")
    ∧ (∀ t, s = some t → t ≠ cstr "-" → print_fname_stdout s = t ∧ print_fname_stdin s = t)
    ∧ (∀ t ∈ [cstr "", cstr "--", cstr "-x"],
        print_fname_stdout (some t) = t ∧ print_fname_stdin (some t) = t) := by
  refine ⟨?_, ?_, by decide⟩
  · rintro (rfl | rfl)
    · exact ⟨rfl, rfl⟩
    · exact ⟨by decide, by decide⟩
  · intro t ht hne
    subst ht
    have h0 : 0 ∉ t := hs t rfl
    have hcond : ¬ (peek t = 45 ∧ peek t.tail = 0) := by
      rintro ⟨h1, h2⟩
      apply hne
      cases t with
      | nil => simp [peek] at h1
      | cons c cs =>
        simp only [peek, List.headD_cons, List.tail_cons] at h1 h2
        subst h1
        cases cs with
        | nil => rfl
        | cons d ds =>
          simp only [List.headD_cons] at h2
          subst h2
          exact absurd (by simp) h0
    simp only [print_fname_stdout, print_fname_stdin, if_neg hcond, and_self]

/-- Witness of C12: the file name `out.gpg`. -/
theorem print_fname_cases_witness :
    print_fname_stdout (some (cstr "out.gpg")) = cstr "out.gpg"
    ∧ print_fname_stdin (some (cstr "out.gpg")) = cstr "out.gpg" :=
  (print_fname_cases (some (cstr "out.gpg"))
    (by intro t ht; injection ht with ht; subst ht; decide)).2.1
    (cstr "out.gpg") rfl (by decide)

/-- C14: `my_gcry_logger` maps each of `GCRY_LOG_CONT`, `INFO`, `WARN`,
`ERROR`, `FATAL`, `BUG` and `DEBUG` to the `JNLIB_LOG` level of the same
name and every other level to `JNLIB_LOG_ERROR`; the format string and the
arguments are handed to `log_logv` unchanged. -/
theorem my_gcry_logger_levels {va_list : Type} (c : gcry_log_levels) (level : Int)
    (fmt : CStr) (arg_ptr : va_list) (hc : c.labels.Nodup) :
    my_gcry_logger c c.GCRY_LOG_CONT fmt arg_ptr
        = (jnlib_log_level.JNLIB_LOG_CONT, fmt, arg_ptr)
    ∧ my_gcry_logger c c.GCRY_LOG_INFO fmt arg_ptr
        = (jnlib_log_level.JNLIB_LOG_INFO, fmt, arg_ptr)
    ∧ my_gcry_logger c c.GCRY_LOG_WARN fmt arg_ptr
        = (jnlib_log_level.JNLIB_LOG_WARN, fmt, arg_ptr)
    ∧ my_gcry_logger c c.GCRY_LOG_ERROR fmt arg_ptr
        = (jnlib_log_level.JNLIB_LOG_ERROR, fmt, arg_ptr)
    ∧ my_gcry_logger c c.GCRY_LOG_FATAL fmt arg_ptr
        = (jnlib_log_level.JNLIB_LOG_FATAL, fmt, arg_ptr)
    ∧ my_gcry_logger c c.GCRY_LOG_BUG fmt arg_ptr
        = (jnlib_log_level.JNLIB_LOG_BUG, fmt, arg_ptr)
    ∧ my_gcry_logger c c.GCRY_LOG_DEBUG fmt arg_ptr
        = (jnlib_log_level.JNLIB_LOG_DEBUG, fmt, arg_ptr)
    ∧ (level ∉ c.labels
        → my_gcry_logger c level fmt arg_ptr = (jnlib_log_level.JNLIB_LOG_ERROR, fmt, arg_ptr)) := by
  simp only [gcry_log_levels.labels, List.nodup_cons, List.mem_cons, List.mem_singleton,
    List.not_mem_nil, or_false, not_or, List.nodup_nil, and_true] at hc
  obtain ⟨⟨a1, a2, a3, a4, a5, a6⟩, ⟨b2, b3, b4, b5, b6⟩, ⟨c3, c4, c5, c6⟩, ⟨d4, d5, d6⟩,
    ⟨e5, e6⟩, f6, _⟩ := hc
  refine ⟨?_, ?_, ?_, ?_, ?_, ?_, ?_, ?_⟩
  · simp [my_gcry_logger]
  · simp [my_gcry_logger, Ne.symm a1]
  · simp [my_gcry_logger, Ne.symm a2, Ne.symm b2]
  · simp [my_gcry_logger, Ne.symm a3, Ne.symm b3, Ne.symm c3]
  · simp [my_gcry_logger, Ne.symm a4, Ne.symm b4, Ne.symm c4, Ne.symm d4]
  · simp [my_gcry_logger, Ne.symm a5, Ne.symm b5, Ne.symm c5, Ne.symm d5, Ne.symm e5]
  · simp [my_gcry_logger, Ne.symm a6, Ne.symm b6, Ne.symm c6, Ne.symm d6, Ne.symm e6,
      Ne.symm f6]
  · intro h
    simp only [gcry_log_levels.labels, List.mem_cons, List.mem_singleton, List.not_mem_nil,
      or_false, not_or] at h
    obtain ⟨h1, h2, h3, h4, h5, h6, h7⟩ := h
    simp [my_gcry_logger, h1, h2, h3, h4, h5, h6, h7]

/-- Witness of C14: with the values of libgcrypt, level `20` is a warning and
level `7` is none of the seven. -/
theorem my_gcry_logger_levels_witness :
    my_gcry_logger gcrypt_h 20 (cstr "warning: %s") [1, 2]
        = (jnlib_log_level.JNLIB_LOG_WARN, cstr "warning: %s", [1, 2])
    ∧ my_gcry_logger gcrypt_h 7 (cstr "note: %s") [3]
        = (jnlib_log_level.JNLIB_LOG_ERROR, cstr "note: %s", [3]) :=
  ⟨(my_gcry_logger_levels gcrypt_h 7 (cstr "warning: %s") [1, 2] (by decide)).2.2.1,
   (my_gcry_logger_levels gcrypt_h 7 (cstr "note: %s") [3] (by decide)).2.2.2.2.2.2.2
     (by decide)⟩

/-! ## Multi-string matching: the exact rule -/

theorem segments_ne_nil (s : CStr) : segments s ≠ [] := by
  cases s with
  | nil => simp [segments]
  | cons c cs =>
    unfold segments
    split_ifs
    · simp
    · simp
    · cases segments cs <;> simp

theorem segments_bar (pre rest : CStr) :
    segments (pre ++ 124 :: rest) = segments pre ++ segments rest
      ∨ segments (pre ++ 124 :: rest) = segments pre := by
  induction pre with
  | nil => left; simp [segments]
  | cons c cs ih =>
    by_cases h0 : c = 0
    · right; simp [segments, h0]
    · by_cases hb : c = 124
      · rcases ih with h | h
        · left; simp [segments, hb, h]
        · right; simp [segments, hb, h]
      · obtain ⟨seg, segs, hs⟩ : ∃ seg segs, segments cs = seg :: segs :=
          List.exists_cons_of_ne_nil (segments_ne_nil cs)
        rcases ih with h | h
        · left
          rw [List.cons_append, segments, if_neg h0, if_neg hb, h, segments, if_neg h0,
            if_neg hb, hs]
          rfl
        · right
          rw [List.cons_append, segments, if_neg h0, if_neg hb, h, segments, if_neg h0,
            if_neg hb]

theorem takeWhile_append_stop (l m : List CStr) :
    (l ++ [] :: m).takeWhile (fun seg => !seg.isEmpty) = l.takeWhile (fun seg => !seg.isEmpty) := by
  induction l with
  | nil => simp
  | cons a l ih =>
    cases a with
    | nil => simp
    | cons x xs => simp [List.takeWhile_cons, ih]

theorem tried_segments_double_bar (pre post : CStr) :
    tried_segments (pre ++ 124 :: 124 :: post) = tried_segments pre := by
  unfold tried_segments
  rcases segments_bar pre (124 :: post) with h | h
  · rw [h]
    have : segments (124 :: post) = [] :: segments post := by simp [segments]
    rw [this, takeWhile_append_stop]
  · rw [h]

theorem tried_segments_nonempty (s seg : CStr) (h : seg ∈ tried_segments s) : seg ≠ [] := by
  have := List.mem_takeWhile_imp h
  intro e
  rw [e] at this
  simp at this

theorem takeWhile_index (P : CStr → Prop) (l : List CStr) :
    (∃ seg ∈ l.takeWhile (fun seg => !seg.isEmpty), P seg)
      ↔ ∃ i, i < l.length ∧ (∀ j, j ≤ i → l.getD j [] ≠ []) ∧ P (l.getD i []) := by
  induction l with
  | nil => simp
  | cons a l ih =>
    cases a with
    | nil =>
      constructor
      · rintro ⟨seg, hseg, _⟩
        simp at hseg
      · rintro ⟨i, _, hj, _⟩
        exact absurd rfl (hj 0 (Nat.zero_le i))
    | cons x xs =>
      have htw : ((x :: xs) :: l).takeWhile (fun seg => !seg.isEmpty)
          = (x :: xs) :: l.takeWhile (fun seg => !seg.isEmpty) := by
        simp [List.takeWhile_cons]
      rw [htw]
      constructor
      · rintro ⟨seg, hseg, hP⟩
        rcases List.mem_cons.1 hseg with rfl | hmem
        · refine ⟨0, by simp, ?_, hP⟩
          intro j hj
          have : j = 0 := by omega
          subst this
          simp
        · obtain ⟨i, hi, hj, hPi⟩ := ih.1 ⟨seg, hmem, hP⟩
          refine ⟨i + 1, by simpa using hi, ?_, by simpa using hPi⟩
          intro j hle
          cases j with
          | zero => simp
          | succ k => simpa using hj k (by omega)
      · rintro ⟨i, hi, hj, hP⟩
        cases i with
        | zero => exact ⟨x :: xs, List.mem_cons_self _ _, by simpa using hP⟩
        | succ k =>
          have hk : k < l.length := by simpa using hi
          obtain ⟨seg, hseg, hPs⟩ := ih.2 ⟨k, hk, fun j hle => by
            simpa using hj (j + 1) (by omega), by simpa using hP⟩
          exact ⟨seg, List.mem_cons_of_mem _ hseg, hPs⟩

/-- C15: `match_multistr` returns `1` if and only if some non-empty segment
of `multistr` in front of the first empty segment is a case-insensitive
prefix of `match`, and `0` otherwise.  Hence an empty `multistr`, an empty
`match` and a `multistr` beginning with `|` give `0`, and what follows an
empty segment is never tried: `pre||post` matches exactly what `pre`
matches, and `b` is not matched by `a||b`. -/
theorem match_multistr_exact_rule (multistr mtch pre post : CStr) :
    (match_multistr multistr mtch = some 1
      ↔ ∃ i, i < (segments multistr).length
          ∧ (∀ j, j ≤ i → (segments multistr).getD j [] ≠ [])
          ∧ begins_nocase ((segments multistr).getD i []) mtch)
    ∧ (match_multistr multistr mtch = some 1 ∨ match_multistr multistr mtch = some 0)
    ∧ match_multistr [] mtch = some 0
    ∧ match_multistr multistr [] = some 0
    ∧ match_multistr (124 :: multistr) mtch = some 0
    ∧ match_multistr (pre ++ cstr "||" ++ post) mtch = match_multistr pre mtch
    ∧ match_multistr (cstr "a||b") (cstr "b") = some 0 := by
  refine ⟨?_, ?_, ?_, ?_, ?_, ?_, by decide⟩
  · rw [match_multistr_spec, ← takeWhile_index (fun seg => begins_nocase seg mtch)]
    unfold tried_segments
    by_cases h : ∃ seg ∈ (segments multistr).takeWhile (fun seg => !seg.isEmpty),
        begins_nocase seg mtch
    · simp [h]
    · simp [h]
  · rw [match_multistr_spec]
    split_ifs
    · left; rfl
    · right; rfl
  · rw [match_multistr_spec]
    have : tried_segments [] = [] := rfl
    simp [this]
  · rw [match_multistr_spec]
    have : ¬ ∃ seg ∈ tried_segments multistr, begins_nocase seg [] := by
      rintro ⟨seg, hseg, hlen, _⟩
      have hne := tried_segments_nonempty multistr seg hseg
      apply hne
      apply List.length_eq_zero.1
      simpa using hlen
    rw [if_neg this]
  · rw [match_multistr_spec, tried_segments_stop (124 :: multistr) (Or.inr rfl)]
    simp
  · have e : pre ++ cstr "||" ++ post = pre ++ 124 :: 124 :: post := by
      have : cstr "||" = [124, 124] := rfl
      rw [this]; simp
    rw [e, match_multistr_spec, match_multistr_spec, tried_segments_double_bar]

/-! ## The key search entry point: deduplication -/

theorem write_record_fields (st : merger_state) (r : KeyRecord) :
    (write_record st r).seen = st.seen ∧ (write_record st r).output = st.output
      ∧ ((write_record st r).written = st.written
          ∨ (write_record st r).written = st.written ++ [r]) := by
  unfold write_record
  cases st.room with
  | none => exact ⟨rfl, rfl, Or.inr rfl⟩
  | some n =>
    cases n with
    | zero => exact ⟨rfl, rfl, Or.inl rfl⟩
    | succ k => exact ⟨rfl, rfl, Or.inr rfl⟩

theorem merge_record_invariant (st : merger_state) (r : KeyRecord)
    (h : merger_invariant st) : merger_invariant (merge_record st r) := by
  unfold merge_record
  split_ifs with hc hs
  · exact h
  · exact h
  · obtain ⟨hn, hseen, hsub⟩ := h
    obtain ⟨e1, e2, e3⟩ := write_record_fields
      { st with seen := r.fingerprint :: st.seen, output := st.output ++ [r] } r
    refine ⟨?_, ?_, ?_⟩
    · rw [e2]
      simp only [List.map_append, List.map_cons, List.map_nil]
      rw [List.nodup_append]
      refine ⟨hn, List.nodup_singleton _, ?_⟩
      intro x hx hx'
      simp only [List.mem_singleton] at hx'
      subst hx'
      obtain ⟨r', hr', hfp⟩ := List.mem_map.1 hx
      exact hs (hfp ▸ hseen r' hr')
    · rw [e1, e2]
      intro r' hr'
      rcases List.mem_append.1 hr' with hm | hm
      · exact List.mem_cons_of_mem _ (hseen r' hm)
      · simp only [List.mem_singleton] at hm
        subst hm
        exact List.mem_cons_self _ _
    · rw [e2]
      rcases e3 with e | e
      · rw [e]
        exact hsub.trans (List.sublist_append_left _ _)
      · rw [e]
        exact List.Sublist.append hsub (List.Sublist.refl _)

theorem merge_records_invariant (rs : List KeyRecord) : ∀ st : merger_state,
    merger_invariant st → merger_invariant (rs.foldl merge_record st) := by
  induction rs with
  | nil => intro st h; exact h
  | cons r rs ih => intro st h; exact ih _ (merge_record_invariant st r h)

theorem merge_outcome_invariant (st : merger_state) (o : BackendOutcome)
    (h : merger_invariant st) : merger_invariant (merge_outcome st o) := by
  unfold merge_outcome
  split_ifs
  · exact h
  · cases o.status with
    | Success => exact merge_records_invariant o.records st h
    | Timeout => exact h
    | NetworkError => exact h
    | ProtocolError => exact h
    | ParseError => exact h

theorem merge_outcomes_invariant (os : List BackendOutcome) : ∀ st : merger_state,
    merger_invariant st → merger_invariant (os.foldl merge_outcome st) := by
  induction os with
  | nil => intro st h; exact h
  | cons o os ih => intro st h; exact ih _ (merge_outcome_invariant st o h)

theorem ks_action_search_nodup (ctrl : ctrl_t) (patterns : List CStr)
    (completions : List completion) (room : Option Nat) :
    ((ks_action_search ctrl patterns completions room).2.map (fun r => r.fingerprint)).Nodup := by
  unfold ks_action_search
  split_ifs
  · exact List.nodup_nil
  · exact List.nodup_nil
  · have hinit : merger_invariant ⟨[], [], [], [], room, false⟩ := by
      refine ⟨List.nodup_nil, ?_, List.Sublist.refl _⟩
      intro r hr
      cases hr
    obtain ⟨hn, _, hsub⟩ := merge_outcomes_invariant _ _ hinit
    exact List.Nodup.sublist (List.Sublist.map _ hsub) hn

theorem toupper_idem (c : Nat) : toupper (toupper c) = toupper c := by
  unfold toupper; split_ifs <;> omega

theorem toupper_not_space (c : Nat) (h : is_space c = false) : is_space (toupper c) = false := by
  simp only [is_space, Bool.or_eq_false_iff, Bool.and_eq_false_iff, decide_eq_false_iff_not,
    toupper] at h ⊢
  split_ifs <;> omega

theorem canonical_fingerprint_cons (c : Nat) (f : CStr) :
    canonical_fingerprint (c :: f)
      = if is_space c then canonical_fingerprint f else toupper c :: canonical_fingerprint f := by
  unfold canonical_fingerprint
  by_cases h : is_space c = true
  · simp [List.filter_cons, h]
  · simp [List.filter_cons, h]

theorem canonical_fingerprint_idem (f : CStr) :
    canonical_fingerprint (canonical_fingerprint f) = canonical_fingerprint f := by
  induction f with
  | nil => rfl
  | cons c f ih =>
    rw [canonical_fingerprint_cons]
    by_cases h : is_space c = true
    · rw [if_pos h, ih]
    · rw [if_neg h, canonical_fingerprint_cons,
        if_neg (by rw [toupper_not_space c (by simpa using h)]; simp), toupper_idem, ih]

theorem parse_response_canonical (entries : List (Option KeyRecord)) :
    ∀ r ∈ parse_response entries, canonical_fingerprint r.fingerprint = r.fingerprint := by
  intro r hr
  unfold parse_response at hr
  obtain ⟨e, _, he⟩ := List.mem_filterMap.1 hr
  cases e with
  | none => simp at he
  | some r0 =>
    simp only [Option.map_some', Option.some.injEq] at he
    subst he
    exact canonical_fingerprint_idem r0.fingerprint

theorem backend_outcome_canonical (c : completion) :
    ∀ r ∈ (backend_outcome c).records, canonical_fingerprint r.fingerprint = r.fingerprint := by
  intro r hr
  unfold backend_outcome at hr
  cases hreply : c.reply with
  | response entries =>
    rw [hreply] at hr
    exact parse_response_canonical entries r hr
  | timeout => rw [hreply] at hr; cases hr
  | network_error => rw [hreply] at hr; cases hr
  | protocol_error => rw [hreply] at hr; cases hr
  | parse_error => rw [hreply] at hr; cases hr

theorem merge_record_output (st : merger_state) (r x : KeyRecord)
    (hx : x ∈ (merge_record st r).output) : x ∈ st.output ∨ x = r := by
  unfold merge_record at hx
  split_ifs at hx with hc hs
  · exact Or.inl hx
  · exact Or.inl hx
  · rw [(write_record_fields _ r).2.1] at hx
    rcases List.mem_append.1 hx with h | h
    · exact Or.inl h
    · exact Or.inr (by simpa using h)

theorem merge_records_output (rs : List KeyRecord) : ∀ (st : merger_state) (x : KeyRecord),
    x ∈ (rs.foldl merge_record st).output → x ∈ st.output ∨ x ∈ rs := by
  induction rs with
  | nil => intro st x hx; exact Or.inl hx
  | cons r rs ih =>
    intro st x hx
    rcases ih _ x hx with h | h
    · rcases merge_record_output st r x h with h' | h'
      · exact Or.inl h'
      · exact Or.inr (h' ▸ List.mem_cons_self _ _)
    · exact Or.inr (List.mem_cons_of_mem _ h)

theorem merge_outcome_output (st : merger_state) (o : BackendOutcome) (x : KeyRecord)
    (hx : x ∈ (merge_outcome st o).output) : x ∈ st.output ∨ x ∈ o.records := by
  unfold merge_outcome at hx
  split_ifs at hx
  · exact Or.inl hx
  · cases hst : o.status with
    | Success => rw [hst] at hx; exact merge_records_output o.records st x hx
    | Timeout => rw [hst] at hx; exact Or.inl hx
    | NetworkError => rw [hst] at hx; exact Or.inl hx
    | ProtocolError => rw [hst] at hx; exact Or.inl hx
    | ParseError => rw [hst] at hx; exact Or.inl hx

theorem merge_outcomes_output (os : List BackendOutcome) : ∀ (st : merger_state) (x : KeyRecord),
    x ∈ (os.foldl merge_outcome st).output → x ∈ st.output ∨ ∃ o ∈ os, x ∈ o.records := by
  induction os with
  | nil => intro st x hx; exact Or.inl hx
  | cons o os ih =>
    intro st x hx
    rcases ih _ x hx with h | ⟨o', ho', h⟩
    · rcases merge_outcome_output st o x h with h' | h'
      · exact Or.inl h'
      · exact Or.inr ⟨o, List.mem_cons_self _ _, h'⟩
    · exact Or.inr ⟨o', List.mem_cons_of_mem _ ho', h⟩

theorem ks_action_search_canonical (ctrl : ctrl_t) (patterns : List CStr)
    (completions : List completion) (room : Option Nat) :
    ∀ r ∈ (ks_action_search ctrl patterns completions room).2,
      canonical_fingerprint r.fingerprint = r.fingerprint := by
  intro r hr
  unfold ks_action_search at hr
  split_ifs at hr
  · cases hr
  · cases hr
  · have hinit : merger_invariant ⟨[], [], [], [], room, false⟩ := by
      refine ⟨List.nodup_nil, ?_, List.Sublist.refl _⟩
      intro r hr
      cases hr
    obtain ⟨_, _, hsub⟩ := merge_outcomes_invariant _ _ hinit
    rcases merge_outcomes_output _ _ r (hsub.subset hr) with h | ⟨o, ho, h⟩
    · cases h
    · obtain ⟨c, _, rfl⟩ := List.mem_map.1 ho
      exact backend_outcome_canonical c r h

theorem filter_fingerprint_le_one (l : List KeyRecord) (fpr : CStr)
    (h : (l.map (fun r => r.fingerprint)).Nodup) :
    (l.filter (fun r => decide (r.fingerprint = fpr))).length ≤ 1 := by
  induction l with
  | nil => simp
  | cons x l ih =>
    rw [List.map_cons, List.nodup_cons] at h
    by_cases hx : x.fingerprint = fpr
    · have hnone : l.filter (fun r => decide (r.fingerprint = fpr)) = [] := by
        rw [List.filter_eq_nil_iff]
        intro y hy hfy
        apply h.1
        rw [hx, ← of_decide_eq_true hfy]
        exact List.mem_map_of_mem _ hy
      rw [List.filter_cons, if_pos (by simpa using hx), hnone]
      simp
    · rw [List.filter_cons, if_neg (by simpa using hx)]
      exact ih h.2

/-- C13: in a single call of `ks_action_search`, for every registry, list of
patterns, sequence of completed backend calls (any number of backends, any
replies, any completion order) and sink, at most one key record per
canonical fingerprint is written to the output stream, and the fingerprint
of every record written is canonical.  In the scenario of two backends, the
first returning `AB` and `CD` and the second `ab` and `EF`, the records
`AB`, `CD`, `EF` are written in that order with status Success. -/
theorem ks_action_search_dedup (ctrl : ctrl_t) (patterns : List CStr)
    (completions : List completion) (room : Option Nat) :
    (∀ fpr : CStr,
      ((ks_action_search ctrl patterns completions room).2.filter
        (fun r => decide (canonical_fingerprint r.fingerprint = fpr))).length ≤ 1)
    ∧ (∀ r ∈ (ks_action_search ctrl patterns completions room).2,
        canonical_fingerprint r.fingerprint = r.fingerprint)
    ∧ ks_action_search ⟨[⟨cstr "a.example", 11371, false, 30, true⟩,
          ⟨cstr "b.example", 11371, false, 30, true⟩]⟩
        [cstr "alice@example.org"]
        [⟨⟨cstr "a.example", 11371, false, 30, true⟩,
            backend_reply.response [some ⟨cstr "AB", 1, 2048, 0, 0, [], []⟩,
              some ⟨cstr "CD", 1, 2048, 0, 0, [], []⟩]⟩,
          ⟨⟨cstr "b.example", 11371, false, 30, true⟩,
            backend_reply.response [some ⟨cstr " ab", 1, 2048, 0, 0, [], []⟩,
              some ⟨cstr "EF", 1, 2048, 0, 0, [], []⟩]⟩]
        none
      = (search_status.Success,
          [⟨cstr "AB", 1, 2048, 0, 0, [], []⟩, ⟨cstr "CD", 1, 2048, 0, 0, [], []⟩,
            ⟨cstr "EF", 1, 2048, 0, 0, [], []⟩]) := by
  have hcanon := ks_action_search_canonical ctrl patterns completions room
  refine ⟨?_, hcanon, by decide⟩
  intro fpr
  have hfilter : (ks_action_search ctrl patterns completions room).2.filter
        (fun r => decide (canonical_fingerprint r.fingerprint = fpr))
      = (ks_action_search ctrl patterns completions room).2.filter
          (fun r => decide (r.fingerprint = fpr)) := by
    apply List.filter_congr
    intro r hr
    rw [hcanon r hr]
  rw [hfilter]
  exact filter_fingerprint_le_one _ fpr (ks_action_search_nodup ctrl patterns completions room)

end Miscellaneous
